import Mathlib

/-!
# Verification of the financial-table aggregation pipeline

A shallow embedding of the record-aggregation pipeline implemented by
`render` in `src/financial-table/src/chart.ts`, together with proofs and
refutations of the specification's claims about it.

JavaScript values flowing through the pipeline (row cells and record
fields) are modelled by `Val`.  Numbers are modelled exactly (`Int`) with
an explicit `NaN` element; the pipeline only ever adds, subtracts and
compares, so exact arithmetic is faithful.  Object-valued category cells
(whose display name the source resolves through `localize`) are outside
the modelled fragment: the embedding covers the scalar branch
`String(category)` of the display-name fallback chain.  `Number(...)`
coercion of strings is likewise modelled only as far as the pipeline
exercises it (non-numeric coercions yield `NaN`).

JS objects (`Record<string, string | number>`) are modelled as
association lists that preserve key-insertion order, exactly as
`Object.keys` enumeration order behaves for the non-index string keys
this program uses.  Property writes replace in place; reads of absent
properties yield `undefined`.
-/

/-- A JavaScript value as used by the pipeline: a string, an exact number,
`NaN`, a boolean or `undefined`. -/
inductive Val where
  | vstr (s : String)
  | vnum (n : Int)
  | vnan
  | vbool (b : Bool)
  | vundef
  deriving DecidableEq, Repr

namespace Val

/-- JS `String(v)` for the scalar values of the modelled fragment. -/
def jsToString : Val → String
  | vstr s => s
  | vnum n => toString n
  | vnan => "NaN"
  | vbool b => if b then "true" else "false"
  | vundef => "undefined"

/-- JS `Number(v)`: numbers pass through, `undefined` and non-numeric
values give `NaN`, booleans coerce to 0/1.  (Numeric-string coercion is
not exercised by the pipeline's sums and is mapped to `NaN`.) -/
def toNumber : Val → Val
  | vnum n => vnum n
  | vbool b => vnum (if b then 1 else 0)
  | vstr _ => vnan
  | vnan => vnan
  | vundef => vnan

/-- JS truthiness. -/
def truthy : Val → Bool
  | vnum n => n != 0
  | vnan => false
  | vstr s => s != ""
  | vbool b => b
  | vundef => false

/-- Addition of two already-coerced numbers; `NaN` is absorbing. -/
def nadd : Val → Val → Val
  | vnum a, vnum b => vnum (a + b)
  | _, _ => vnan

/-- JS `a - b` (both operands coerced with `Number`). -/
def jsSub (a b : Val) : Val :=
  match toNumber a, toNumber b with
  | vnum x, vnum y => vnum (x - y)
  | _, _ => vnan

/-- JS strict equality `===` on the modelled values: `NaN` is equal to
nothing, otherwise structural equality. -/
def jsEqb (a b : Val) : Bool :=
  if a = vnan ∨ b = vnan then false else a == b

/-- `Number(v ?? 0)`, the zero-filling coercion used by the cumulative
pass. -/
def numOrZero (v : Val) : Val :=
  toNumber (if v = vundef then vnum 0 else v)

end Val

open Val

/-- A JS object keyed by strings, as an insertion-ordered association
list with (by construction) pairwise-distinct keys. -/
abbrev Rec := List (String × Val)

namespace Rec

/-- Property read: the value stored at `k`, or `undefined` if absent. -/
def get : Rec → String → Val
  | [], _ => vundef
  | (k', v) :: r, k => if k' = k then v else get r k

/-- Property write: replaces in place if the key exists (keeping its
position in enumeration order), else appends the key. -/
def set : Rec → String → Val → Rec
  | [], k, v => [(k, v)]
  | (k', v') :: r, k, v => if k' = k then (k', v) :: r else (k', v') :: set r k v

/-- `Object.keys`, in insertion order. -/
def keys (r : Rec) : List String := r.map Prod.fst

/-- Whether the object carries property `k` (even with value
`undefined`). -/
def hasKey (r : Rec) (k : String) : Bool := r.any (fun p => p.1 == k)

end Rec

/-- Replace the element at position `i` by `f` applied to it (used to
model in-place mutation of one record found in the record list). -/
def modifyAt (l : List Rec) (i : Nat) (f : Rec → Rec) : List Rec :=
  match l, i with
  | [], _ => []
  | x :: xs, 0 => f x :: xs
  | x :: xs, i + 1 => x :: modifyAt xs i f

/-- One stable insertion step for `Array.prototype.sort`: the element is
placed before the first element it compares strictly below. -/
def insertCmp (cmp : Rec → Rec → Int) (x : Rec) : List Rec → List Rec
  | [] => [x]
  | y :: ys => if cmp x y < 0 then x :: y :: ys else y :: insertCmp cmp x ys

/-- `Array.prototype.sort(cmp)`, modelled as a stable insertion sort.
ECMAScript requires a stable sort and fully determines the result for
consistent comparators; for the inconsistent comparators below the
engine's permutation is unspecified and this model fixes one. -/
def sortCmp (cmp : Rec → Rec → Int) (l : List Rec) : List Rec :=
  l.foldl (fun acc x => insertCmp cmp x acc) []

/-- The configuration the `render` function derives from its slots
before processing rows: whether an `order` slot is bound, the resolved
number of category levels, and the localized measure labels. -/
structure Cfg where
  hasOrder : Bool
  numberOfCategories : Nat
  baseMeasureLabels : List String
  deriving Repr

namespace Cfg

/-- `numberOfMeasures`: the number of bound measure columns. -/
def numberOfMeasures (c : Cfg) : Nat := c.baseMeasureLabels.length

/-- `hasDifference`: a synthetic Gap measure exists iff exactly two
measures are bound. -/
def hasDifference (c : Cfg) : Bool := c.baseMeasureLabels.length == 2

/-- `measureLabels` after the conditional `measureLabels.push('Gap')`. -/
def measureLabels (c : Cfg) : List String :=
  if c.baseMeasureLabels.length = 2 then c.baseMeasureLabels ++ ["Gap"] else c.baseMeasureLabels

/-- `categoryIndexAsOf`: index of the first category cell in a row. -/
def categoryIndexAsOf (c : Cfg) : Nat := if c.hasOrder then 2 else 1

/-- `measureIndexAsOf`: index of the first measure cell in a row. -/
def measureIndexAsOf (c : Cfg) : Nat := c.categoryIndexAsOf + c.numberOfCategories

end Cfg

/-- An input row: the decoded cells `[period, order?, categories..., measures...]`. -/
abbrev Row := List Val

/-- The category block built per row (source lines 219-231): the running
composite key under `category` and the per-level display label under
`category-i`, each level's display being `String(cell)` in the modelled
scalar fragment. -/
def buildCats (cfg : Cfg) (row : Row) : Rec :=
  ((List.range cfg.numberOfCategories).foldl
    (fun (acc : String × Rec) i =>
      let category := row.getD (cfg.categoryIndexAsOf + i) vundef
      let display := category.jsToString
      let categoryKey := (if acc.1 ≠ "" then acc.1 ++ " || " else "") ++ display
      (categoryKey,
        (acc.2.set "category" (vstr categoryKey)).set
          ("category-" ++ Nat.repr (i + 1)) (vstr display)))
    ("", ([] : Rec))).2

/-- Source lines 244-249: store the row's `order` cell when the order
slot is bound and the cell is not `undefined`. -/
def setOrder (cfg : Cfg) (row : Row) (r : Rec) : Rec :=
  if cfg.hasOrder then
    if row.getD 1 vundef ≠ vundef then r.set "order" (row.getD 1 vundef) else r
  else r

/-- Source lines 251-255: write one `month || measure` column per bound
measure, straight from the row's measure cells. -/
def setMeasures (cfg : Cfg) (monthStr : String) (row : Row) (r : Rec) : Rec :=
  (List.range cfg.numberOfMeasures).foldl
    (fun r i =>
      r.set (monthStr ++ " || " ++ cfg.measureLabels.getD i "")
        (row.getD (cfg.measureIndexAsOf + i) vundef))
    r

/-- Source lines 257-260: the derived `month || Gap` column
(second measure minus first) when exactly two measures exist. -/
def setGap (cfg : Cfg) (monthStr : String) (row : Row) (r : Rec) : Rec :=
  if cfg.hasDifference then
    r.set (monthStr ++ " || Gap")
      (jsSub (row.getD (cfg.measureIndexAsOf + 1) vundef)
             (row.getD cfg.measureIndexAsOf vundef))
  else r

/-- The per-row mutation of a category record (source lines 244-260):
optional explicit order, then the measure columns, then the Gap column. -/
def updRecord (cfg : Cfg) (monthStr : String) (row : Row) (r : Rec) : Rec :=
  setGap cfg monthStr row (setMeasures cfg monthStr row (setOrder cfg row r))

/-- The state threaded through the row loop: the distinct months in
first-seen order and the leaf records built so far.  (The source also
collects the distinct years; they are dead downstream of the loop and
not modelled.) -/
structure Stage where
  months : List Val
  records : List Rec
  deriving Repr

/-- One iteration of `data.forEach` (source lines 203-265): record the
month, build the category block, and either merge into the existing
record with the same composite `category` value or append a new one. -/
def applyRow (cfg : Cfg) (st : Stage) (row : Row) : Stage :=
  let month := row.getD 0 vundef
  let months := if month ∈ st.months then st.months else st.months ++ [month]
  let categories := buildCats cfg row
  match st.records.findIdx? (fun r => jsEqb (r.get "category") (categories.get "category")) with
  | some i =>
      { months := months
        records := modifyAt st.records i (updRecord cfg month.jsToString row) }
  | none =>
      { months := months
        records := st.records ++ [updRecord cfg month.jsToString row categories] }

/-- One measure of the cumulative pass: start `Cumul || measure` at 0
and add `Number(v ?? 0)` of every month column in month order. -/
def cumulMeasure (months : List Val) (measure : String) (r : Rec) : Rec :=
  months.foldl
    (fun r month =>
      r.set ("Cumul || " ++ measure)
        (nadd (numOrZero (r.get ("Cumul || " ++ measure)))
              (numOrZero (r.get (month.jsToString ++ " || " ++ measure)))))
    (r.set ("Cumul || " ++ measure) (vnum 0))

/-- The cumulative pass on one record (source lines 269-278). -/
def cumulize (months : List Val) (measures : List String) (r : Rec) : Rec :=
  measures.foldl (fun r measure => cumulMeasure months measure r) r

/-- The weak row-order comparator (source lines 290-295): when both
records carry a truthy `order`, their difference; otherwise 0.  Per the
ECMAScript sort specification a `NaN` comparator result counts as +0. -/
def orderCmp (a b : Rec) : Int :=
  if truthy (a.get "order") && truthy (b.get "order") then
    match jsSub (a.get "order") (b.get "order") with
    | vnum n => n
    | _ => 0
  else 0

/-- The distinct values of field `key` over the records, in first-seen
order (source lines 297-305, membership per `Array.includes`). -/
def firstSeen (records : List Rec) (key : String) : List Val :=
  records.foldl (fun acc r => if r.get key ∈ acc then acc else acc ++ [r.get key]) []

/-- `orders`: the per-level canonical label lists; entry `j` holds the
list for `category-(j+1)`. -/
def ordersOf (n : Nat) (records : List Rec) : List (List Val) :=
  (List.range n).map (fun j => firstSeen records ("category-" ++ Nat.repr (j + 1)))

/-- `measuresInAllRecords` (source lines 320-322): the keys of the first
record of the (sorted) record list whose enumeration index exceeds the
category/order block. -/
def measuresInAllRecords (cfg : Cfg) (records : List Rec) : List String :=
  let c := cfg.numberOfCategories + (if cfg.hasOrder then 1 else 0)
  (((records.headD []).keys.enum.filter (fun p => c < p.1)).map Prod.snd)

/-- `[...].reduce((acc, record) => acc + Number(record[measure]), 0)`:
the NaN-propagating JS sum of field `k` over `l`. -/
def sumField (l : List Rec) (k : String) : Val :=
  l.foldl (fun acc r => nadd acc (toNumber (r.get k))) (vnum 0)

/-- Whether a label is one of the designated boundary labels, compared
as in `['Initial', 'Final'].includes(x)`. -/
def isBoundary (v : Val) : Bool := v == vstr "Initial" || v == vstr "Final"

/-- The row-selection predicate of the subtotal pass (source lines
333-338): the cross-cutting label `Cashflow Net` selects every
non-boundary non-subtotal record; every other label selects the records
whose `category-1` strictly equals it. -/
def subtotalSel (label : Val) (r : Rec) : Bool :=
  if label == vstr "Cashflow Net" then
    !(isBoundary (vstr (r.get "category-1").jsToString)) && !(truthy (r.get "subtotal"))
  else jsEqb (r.get "category-1") label

/-- One subtotal record (source lines 326-345): labelled at every level
with the top-level label, flagged `subtotal`, and carrying, for every
column of `mIAR`, the JS sum over the selected records. -/
def mkSubtotal (cfg : Cfg) (mIAR : List String) (records : List Rec) (label : Val) : Rec :=
  let base : Rec := [("category", label), ("subtotal", vbool true)]
  let base :=
    (List.range cfg.numberOfCategories).foldl
      (fun r i => r.set ("category-" ++ Nat.repr (i + 1)) label) base
  let sel := records.filter (subtotalSel label)
  mIAR.foldl (fun rec k => rec.set k (sumField sel k)) base

/-- The subtotal pass (source lines 323-348): only when more than one
category level exists; one subtotal per non-boundary top-level label,
appended as computed (so later subtotals scan a list already containing
earlier ones). -/
def addSubtotals (cfg : Cfg) (orders1 : List Val) (mIAR : List String)
    (records : List Rec) : List Rec :=
  if 1 < cfg.numberOfCategories then
    orders1.foldl
      (fun recs label =>
        if isBoundary label then recs
        else recs ++ [mkSubtotal cfg mIAR recs label])
      records
  else records

/-- The cumulative-snapshot overwrite shared by the two correction
passes: each `Cumul || measure` column is overwritten with the record's
own value for the snapshot month's column. -/
def cumulOverwrite (measureLabels : List String) (monthStr : String) (r : Rec) : Rec :=
  measureLabels.foldl
    (fun r m => r.set ("Cumul || " ++ m) (r.get (monthStr ++ " || " ++ m)))
    r

/-- The boundary-row cumulative correction (source lines 351-361): find
the first record whose composite key is exactly `'Initial || Solde
Initial'` and overwrite each of its `Cumul` columns with its value for
`months[0]`, the first-encountered month. -/
def initialCorrection (measureLabels : List String) (months : List Val)
    (records : List Rec) : List Rec :=
  match records.findIdx? (fun r => jsEqb (r.get "category") (vstr "Initial || Solde Initial")) with
  | none => records
  | some i =>
      modifyAt records i (cumulOverwrite measureLabels (months.headD vundef).jsToString)

/-- The grand-total record (source lines 365-382): created with
`subtotal: true`; per category level it is labelled `'Grand Total'` and
(re)assigned `order = 999999` and `grandtotal = true`; every column of
`mIAR` is the JS sum over the records not flagged `subtotal`. -/
def mkGrandTotal (cfg : Cfg) (mIAR : List String) (records : List Rec) : Rec :=
  let gt : Rec := [("category", vstr "Grand Total"), ("subtotal", vbool true)]
  let gt :=
    (List.range cfg.numberOfCategories).foldl
      (fun r i =>
        ((r.set ("category-" ++ Nat.repr (i + 1)) (vstr "Grand Total")).set
          "order" (vnum 999999)).set "grandtotal" (vbool true))
      gt
  let allRecordsNoSubtotals := records.filter (fun r => !(truthy (r.get "subtotal")))
  mIAR.foldl (fun r k => r.set k (sumField allRecordsNoSubtotals k)) gt

/-- The grand-total cumulative correction (source lines 384-392): find
the first record whose composite key is `'Grand Total'` and overwrite
each of its `Cumul` columns with its value for the last-encountered
month. -/
def grandTotalCorrection (measureLabels : List String) (months : List Val)
    (records : List Rec) : List Rec :=
  match records.findIdx? (fun r => jsEqb (r.get "category") (vstr "Grand Total")) with
  | none => records
  | some i =>
      modifyAt records i (cumulOverwrite measureLabels (months.getLastD vundef).jsToString)

/-- `indexOf` over a canonical order list, `-1` when absent. -/
def jsIndexOf (l : List Val) (v : Val) : Int :=
  match l.findIdx? (fun x => jsEqb x v) with
  | some i => (i : Int)
  | none => -1

/-- The final comparator (source lines 400-412).  The source's `for`
loop returns on its very first iteration — the `return 1` is not guarded
— so only `category-1` is ever compared: a strict mismatch yields the
difference of `indexOf` positions in the level-1 order list, a match
yields `1`; with zero category levels the loop body never runs and the
comparator is constantly `-1`. -/
def finalCmp (orders1 : List Val) (numberOfCategories : Nat) (a b : Rec) : Int :=
  if 1 ≤ numberOfCategories then
    if ¬ jsEqb (a.get "category-1") (b.get "category-1") then
      jsIndexOf orders1 (a.get "category-1") - jsIndexOf orders1 (b.get "category-1")
    else 1
  else -1

/-- Stage A: the row loop. -/
def stageA (cfg : Cfg) (data : List Row) : Stage :=
  data.foldl (applyRow cfg) ⟨[], []⟩

/-- The distinct months in first-seen order. -/
def monthsOf (cfg : Cfg) (data : List Row) : List Val :=
  (stageA cfg data).months

/-- Stage B: leaf records after the cumulative pass. -/
def stageB (cfg : Cfg) (data : List Row) : List Rec :=
  (stageA cfg data).records.map (cumulize (monthsOf cfg data) cfg.measureLabels)

/-- Stage C: leaf records after the weak order sort. -/
def sortedLeaves (cfg : Cfg) (data : List Row) : List Rec :=
  sortCmp orderCmp (stageB cfg data)

/-- The canonical per-level label lists derived from the sorted leaves. -/
def ordersBase (cfg : Cfg) (data : List Row) : List (List Val) :=
  ordersOf cfg.numberOfCategories (sortedLeaves cfg data)

/-- The pipeline's `measuresInAllRecords`. -/
def mIAROf (cfg : Cfg) (data : List Row) : List String :=
  measuresInAllRecords cfg (sortedLeaves cfg data)

/-- Stage F: leaves plus appended subtotal records. -/
def withSubtotals (cfg : Cfg) (data : List Row) : List Rec :=
  addSubtotals cfg ((ordersBase cfg data).headD []) (mIAROf cfg data) (sortedLeaves cfg data)

/-- Stage G: after the `'Initial || Solde Initial'` cumulative correction. -/
def afterInitial (cfg : Cfg) (data : List Row) : List Rec :=
  initialCorrection cfg.measureLabels (monthsOf cfg data) (withSubtotals cfg data)

/-- The level-1 order list after `orders['category-1'].push('Grand Total')`. -/
def orders1Final (cfg : Cfg) (data : List Row) : List Val :=
  ((ordersBase cfg data).headD []) ++ [vstr "Grand Total"]

/-- Stage I: the grand-total record appended. -/
def withGrandTotal (cfg : Cfg) (data : List Row) : List Rec :=
  afterInitial cfg data ++ [mkGrandTotal cfg (mIAROf cfg data) (afterInitial cfg data)]

/-- Stage J: after the grand-total cumulative correction. -/
def afterGTCorrection (cfg : Cfg) (data : List Row) : List Rec :=
  grandTotalCorrection cfg.measureLabels (monthsOf cfg data) (withGrandTotal cfg data)

/-- Stage K: the final sorted record list handed to the table renderer. -/
def finalRecords (cfg : Cfg) (data : List Row) : List Rec :=
  sortCmp (finalCmp (orders1Final cfg data) cfg.numberOfCategories) (afterGTCorrection cfg data)

/-- The observable outcome of `render`'s data path: the empty-data
placeholder, the `'Fill in all the columns'` placeholder, the
uncaught `TypeError` thrown by `orders['category-1'].push` when no
category level is resolved, or the final record list. -/
inductive RenderResult where
  | noData
  | layoutError
  | crash
  | table (records : List Rec)
  deriving Repr, DecidableEq

/-- The full data path of `render` (source lines 160-412): the empty
check, the under-3-cells check on the first row only, then the
aggregation pipeline. -/
def renderPipeline (cfg : Cfg) (data : List Row) : RenderResult :=
  if data.length = 0 then .noData
  else if (data.headD []).length < 3 then .layoutError
  else if cfg.numberOfCategories = 0 then .crash
  else .table (finalRecords cfg data)

/-! ## Basic lemmas about the record model -/

namespace Rec

theorem get_set_self (r : Rec) (k : String) (v : Val) : (r.set k v).get k = v := by
  induction r with
  | nil => simp [set, get]
  | cons p r ih =>
    obtain ⟨k', v'⟩ := p
    by_cases h : k' = k
    · simp [set, get, h]
    · simp [set, get, h, ih]

theorem get_set_ne (r : Rec) (k k' : String) (v : Val) (h : k ≠ k') :
    (r.set k v).get k' = r.get k' := by
  induction r with
  | nil => simp [set, get, h]
  | cons p r ih =>
    obtain ⟨k₀, v₀⟩ := p
    by_cases h₀ : k₀ = k
    · subst h₀
      simp [set, get, h]
    · simp [set, get, h₀, ih]

theorem mem_keys_set (r : Rec) (k k' : String) (v : Val) :
    k' ∈ (r.set k v).keys ↔ k' ∈ r.keys ∨ k' = k := by
  induction r with
  | nil => simp [set, keys]
  | cons p r ih =>
    obtain ⟨k₀, v₀⟩ := p
    by_cases h₀ : k₀ = k
    · subst h₀
      simp [set, keys]
      tauto
    · simp [set, keys, h₀] at ih ⊢
      tauto

theorem keys_cons (k : String) (v : Val) (r : Rec) :
    keys ((k, v) :: r) = k :: keys r := rfl

theorem get_eq_vundef_of_not_mem_keys (r : Rec) (k : String) (h : k ∉ r.keys) :
    r.get k = vundef := by
  induction r with
  | nil => rfl
  | cons p r ih =>
    obtain ⟨k₀, v₀⟩ := p
    rw [keys_cons] at h
    have h1 : k₀ ≠ k := fun e => h (by simp [e])
    have h2 : k ∉ keys r := fun e => h (by simp [e])
    simp [get, h1, ih h2]

theorem mem_keys_of_get_ne_vundef (r : Rec) (k : String) (h : r.get k ≠ vundef) :
    k ∈ r.keys := by
  by_contra hk
  exact h (get_eq_vundef_of_not_mem_keys r k hk)

end Rec

/-- Reading after a fold that only writes other keys is unchanged. -/
theorem get_foldl_set {α : Type} (l : List α) (keyf : α → String) (valf : α → Rec → Val)
    (r : Rec) (k : String) (h : ∀ x ∈ l, keyf x ≠ k) :
    (l.foldl (fun r x => r.set (keyf x) (valf x r)) r).get k = r.get k := by
  induction l generalizing r with
  | nil => rfl
  | cons x l ih =>
    simp only [List.foldl_cons]
    rw [ih _ (fun y hy => h y (List.mem_cons_of_mem x hy)),
      Rec.get_set_ne _ _ _ _ (h x (List.mem_cons_self x l))]

/-- Keys after a fold of writes: the original keys plus the written ones. -/
theorem mem_keys_foldl_set {α : Type} (l : List α) (keyf : α → String) (valf : α → Rec → Val)
    (r : Rec) (k : String) :
    k ∈ (l.foldl (fun r x => r.set (keyf x) (valf x r)) r).keys ↔
      k ∈ r.keys ∨ ∃ x ∈ l, keyf x = k := by
  induction l generalizing r with
  | nil => simp
  | cons x l ih =>
    simp only [List.foldl_cons]
    rw [ih, Rec.mem_keys_set]
    constructor
    · rintro ((h | h) | ⟨y, hy, hk⟩)
      · exact Or.inl h
      · exact Or.inr ⟨x, List.mem_cons_self x l, h.symm⟩
      · exact Or.inr ⟨y, List.mem_cons_of_mem x hy, hk⟩
    · rintro (h | ⟨y, hy, hk⟩)
      · exact Or.inl (Or.inl h)
      · rcases List.mem_cons.mp hy with rfl | hy
        · exact Or.inl (Or.inr hk.symm)
        · exact Or.inr ⟨y, hy, hk⟩

/-! ## Key-string lemmas

The pipeline distinguishes its bookkeeping fields (`category`,
`category-i`, `order`, `subtotal`, `grandtotal`) from value columns
purely by the shape of the key strings: every value column contains the
separator `' || '` and hence a space, while no bookkeeping field does.
The lemmas below make those disjointness facts available, including that
decimal digit strings produced by `Nat.repr` contain no space. -/

theorem digitChar_isDigit (k : Nat) (h : k < 10) : (Nat.digitChar k).isDigit = true := by
  interval_cases k <;> decide

theorem toDigitsCore_mem (f : Nat) :
    ∀ (n : Nat) (acc : List Char) (c : Char), c ∈ Nat.toDigitsCore 10 f n acc →
      c.isDigit = true ∨ c ∈ acc := by
  induction f with
  | zero => intro n acc c hc; exact Or.inr hc
  | succ f ih =>
    intro n acc c hc
    rw [Nat.toDigitsCore] at hc
    by_cases h0 : n / 10 = 0
    · simp only [h0, if_pos] at hc
      rcases List.mem_cons.mp hc with rfl | hc
      · exact Or.inl (digitChar_isDigit _ (Nat.mod_lt _ (by norm_num)))
      · exact Or.inr hc
    · simp only [h0, if_neg, not_false_iff] at hc
      rcases ih _ _ _ hc with h | h
      · exact Or.inl h
      · rcases List.mem_cons.mp h with rfl | h
        · exact Or.inl (digitChar_isDigit _ (Nat.mod_lt _ (by norm_num)))
        · exact Or.inr h

theorem repr_mem_isDigit (n : Nat) (c : Char) (hc : c ∈ (Nat.repr n).data) :
    c.isDigit = true := by
  have : c ∈ Nat.toDigits 10 n := hc
  rw [Nat.toDigits] at this
  rcases toDigitsCore_mem _ _ _ _ this with h | h
  · exact h
  · exact absurd h (List.not_mem_nil c)

theorem repr_no_space (n : Nat) : ' ' ∉ (Nat.repr n).data := by
  intro h
  have := repr_mem_isDigit n ' ' h
  simp [Char.isDigit] at this

theorem toDigitsCore_length_le (f : Nat) :
    ∀ (n : Nat) (acc : List Char), acc.length ≤ (Nat.toDigitsCore 10 f n acc).length := by
  induction f with
  | zero => intro n acc; simp [Nat.toDigitsCore]
  | succ f ih =>
    intro n acc
    rw [Nat.toDigitsCore]
    by_cases h0 : n / 10 = 0
    · simp [h0]
    · simp only [h0, if_neg, not_false_iff]
      calc acc.length ≤ (Nat.digitChar (n % 10) :: acc).length := by simp
        _ ≤ _ := ih _ _

theorem toDigitsCore_length_succ (f n : Nat) (acc : List Char) :
    acc.length + 1 ≤ (Nat.toDigitsCore 10 (f + 1) n acc).length := by
  rw [Nat.toDigitsCore]
  by_cases h0 : n / 10 = 0
  · simp [h0]
  · simp only [h0, if_neg, not_false_iff]
    calc acc.length + 1 = (Nat.digitChar (n % 10) :: acc).length := by simp
      _ ≤ _ := toDigitsCore_length_le _ _ _

theorem repr_eq_one_iff (n : Nat) : Nat.repr n = "1" ↔ n = 1 := by
  constructor
  · intro h
    by_cases h10 : n < 10
    · interval_cases n <;> first | rfl | exact absurd h (by decide)
    · exfalso
      have h2 : 2 ≤ ((Nat.repr n).data).length := by
        have hd : (Nat.repr n).data = Nat.toDigitsCore 10 (n + 1) n [] := rfl
        rw [hd, Nat.toDigitsCore]
        have h0 : ¬ n / 10 = 0 := by
          have : 10 * 1 ≤ n := by omega
          have := (Nat.le_div_iff_mul_le (by norm_num : 0 < 10)).mpr (by omega : 1 * 10 ≤ n)
          omega
        simp only [h0, if_neg, not_false_iff]
        obtain ⟨m, rfl⟩ : ∃ m, n = m + 1 := ⟨n - 1, by omega⟩
        calc (2 : Nat) = ([Nat.digitChar ((m + 1) % 10)]).length + 1 := by simp
          _ ≤ _ := toDigitsCore_length_succ m ((m + 1) / 10) _
      rw [h] at h2
      simp at h2
  · rintro rfl
    rfl

/-- The key of every period/measure or cumulative column contains a
space (from the `' || '` separator). -/
theorem sep_key_has_space (a b : String) : ' ' ∈ (a ++ " || " ++ b).data := by
  rw [String.data_append, String.data_append]
  refine List.mem_append.mpr (Or.inl (List.mem_append.mpr (Or.inr ?_)))
  decide

theorem cumul_key_has_space (m : String) : ' ' ∈ ("Cumul || " ++ m).data := by
  rw [String.data_append]
  refine List.mem_append.mpr (Or.inl ?_)
  decide

theorem string_eq_iff_data (s t : String) : s = t ↔ s.data = t.data := by
  constructor
  · rintro rfl; rfl
  · intro h
    cases s
    cases t
    exact congrArg String.mk h

theorem catkey_data (x : String) :
    ("category-" ++ x).data = 'c' :: 'a' :: 't' :: 'e' :: 'g' :: 'o' :: 'r' :: 'y' :: '-' :: x.data := by
  rw [String.data_append]
  rfl

theorem catkey_ne_category (x : String) : ("category-" ++ x) ≠ "category" := by
  intro h
  rw [string_eq_iff_data, catkey_data] at h
  have := congrArg List.length h
  simp at this

theorem catkey_ne_order (x : String) : ("category-" ++ x) ≠ "order" := by
  intro h
  rw [string_eq_iff_data, catkey_data] at h
  exact absurd (List.head_eq_of_cons_eq h) (by decide)

theorem catkey_ne_subtotal (x : String) : ("category-" ++ x) ≠ "subtotal" := by
  intro h
  rw [string_eq_iff_data, catkey_data] at h
  exact absurd (List.head_eq_of_cons_eq h) (by decide)

theorem catkey_ne_grandtotal (x : String) : ("category-" ++ x) ≠ "grandtotal" := by
  intro h
  rw [string_eq_iff_data, catkey_data] at h
  exact absurd (List.head_eq_of_cons_eq h) (by decide)

theorem catkey_no_space (i : Nat) : ' ' ∉ ("category-" ++ Nat.repr i).data := by
  rw [catkey_data]
  intro h
  simp only [List.mem_cons] at h
  rcases h with h | h | h | h | h | h | h | h | h | h
  all_goals first
    | exact absurd h (by decide)
    | exact repr_no_space i h

theorem catkey_inj (x y : String) (h : ("category-" ++ x) = ("category-" ++ y)) : x = y := by
  rw [string_eq_iff_data, catkey_data, catkey_data] at h
  simp only [List.cons.injEq] at h
  rw [string_eq_iff_data]
  exact h.2.2.2.2.2.2.2.2.2

theorem catkey_eq_cat1_iff (i : Nat) :
    ("category-" ++ Nat.repr i) = "category-1" ↔ i = 1 := by
  constructor
  · intro h
    have h1 : ("category-1" : String) = "category-" ++ Nat.repr 1 := by decide
    rw [h1] at h
    exact (repr_eq_one_iff i).mp (catkey_inj _ _ h)
  · rintro rfl
    decide

theorem gap_key_has_space (m : String) : ' ' ∈ (m ++ " || Gap").data := by
  rw [String.data_append]
  refine List.mem_append.mpr (Or.inr ?_)
  decide

/-! ## The leaf-record key-shape invariant -/

/-- The keys a leaf record (one built by the row loop and the cumulative
pass) can carry: the composite `category`, a per-level `category-i`, the
explicit `order`, or a separator-bearing value column. -/
def goodKey (k : String) : Prop :=
  k = "category" ∨ (∃ i, k = "category-" ++ Nat.repr i) ∨ k = "order" ∨ ' ' ∈ k.data

/-- A record all of whose keys are leaf keys; in particular it carries
neither classification flag. -/
def LeafShape (r : Rec) : Prop := ∀ k ∈ r.keys, goodKey k

theorem goodKey_ne_subtotal (k : String) (h : goodKey k) : k ≠ "subtotal" := by
  rintro rfl
  rcases h with h | ⟨i, h⟩ | h | h
  · exact absurd h (by decide)
  · exact catkey_ne_subtotal _ h.symm
  · exact absurd h (by decide)
  · exact absurd h (by decide)

theorem goodKey_ne_grandtotal (k : String) (h : goodKey k) : k ≠ "grandtotal" := by
  rintro rfl
  rcases h with h | ⟨i, h⟩ | h | h
  · exact absurd h (by decide)
  · exact catkey_ne_grandtotal _ h.symm
  · exact absurd h (by decide)
  · exact absurd h (by decide)

theorem LeafShape.get_subtotal {r : Rec} (h : LeafShape r) : r.get "subtotal" = vundef := by
  refine Rec.get_eq_vundef_of_not_mem_keys r _ (fun hk => ?_)
  exact goodKey_ne_subtotal _ (h _ hk) rfl

theorem LeafShape.get_grandtotal {r : Rec} (h : LeafShape r) : r.get "grandtotal" = vundef := by
  refine Rec.get_eq_vundef_of_not_mem_keys r _ (fun hk => ?_)
  exact goodKey_ne_grandtotal _ (h _ hk) rfl

theorem LeafShape.set {r : Rec} (h : LeafShape r) (k : String) (v : Val) (hk : goodKey k) :
    LeafShape (r.set k v) := by
  intro k' hk'
  rcases (Rec.mem_keys_set r k k' v).mp hk' with h' | rfl
  · exact h _ h'
  · exact hk

theorem LeafShape.foldl_set {α : Type} {l : List α} {keyf : α → String} {valf : α → Rec → Val}
    {r : Rec} (h : LeafShape r) (hk : ∀ x ∈ l, goodKey (keyf x)) :
    LeafShape (l.foldl (fun r x => r.set (keyf x) (valf x r)) r) := by
  intro k' hk'
  rcases (mem_keys_foldl_set l keyf valf r k').mp hk' with h' | ⟨x, hx, hkx⟩
  · exact h _ h'
  · exact hkx ▸ hk x hx

theorem buildCats_leafShape (cfg : Cfg) (row : Row) : LeafShape (buildCats cfg row) := by
  rw [buildCats]
  generalize (List.range cfg.numberOfCategories) = l
  have : ∀ (acc : String × Rec), LeafShape acc.2 →
      LeafShape (l.foldl (fun (acc : String × Rec) i =>
        let category := row.getD (cfg.categoryIndexAsOf + i) vundef
        let display := category.jsToString
        let categoryKey := (if acc.1 ≠ "" then acc.1 ++ " || " else "") ++ display
        (categoryKey,
          (acc.2.set "category" (vstr categoryKey)).set
            ("category-" ++ Nat.repr (i + 1)) (vstr display))) acc).2 := by
    induction l with
    | nil => exact fun acc h => h
    | cons x xs ih =>
      intro acc h
      refine ih _ ?_
      exact (h.set _ _ (Or.inl rfl)).set _ _ (Or.inr (Or.inl ⟨x + 1, rfl⟩))
  refine this _ ?_
  intro k hk
  exact absurd hk (List.not_mem_nil k)

theorem setOrder_leafShape (cfg : Cfg) (row : Row) (r : Rec) (h : LeafShape r) :
    LeafShape (setOrder cfg row r) := by
  rw [setOrder]
  split
  · split
    · exact h.set _ _ (Or.inr (Or.inr (Or.inl rfl)))
    · exact h
  · exact h

theorem setMeasures_leafShape (cfg : Cfg) (monthStr : String) (row : Row) (r : Rec)
    (h : LeafShape r) : LeafShape (setMeasures cfg monthStr row r) := by
  rw [setMeasures]
  exact h.foldl_set (fun x _ => Or.inr (Or.inr (Or.inr (sep_key_has_space _ _))))

theorem setGap_leafShape (cfg : Cfg) (monthStr : String) (row : Row) (r : Rec)
    (h : LeafShape r) : LeafShape (setGap cfg monthStr row r) := by
  rw [setGap]
  split
  · exact h.set _ _ (Or.inr (Or.inr (Or.inr (gap_key_has_space _))))
  · exact h

theorem updRecord_leafShape (cfg : Cfg) (monthStr : String) (row : Row) (r : Rec)
    (h : LeafShape r) : LeafShape (updRecord cfg monthStr row r) :=
  setGap_leafShape _ _ _ _ (setMeasures_leafShape _ _ _ _ (setOrder_leafShape _ _ _ h))

theorem cumulMeasure_leafShape (months : List Val) (measure : String) (r : Rec)
    (h : LeafShape r) : LeafShape (cumulMeasure months measure r) := by
  rw [cumulMeasure]
  exact (h.set _ _ (Or.inr (Or.inr (Or.inr (cumul_key_has_space _))))).foldl_set
    (fun x _ => Or.inr (Or.inr (Or.inr (cumul_key_has_space _))))

theorem cumulize_leafShape (months : List Val) (measures : List String) (r : Rec)
    (h : LeafShape r) : LeafShape (cumulize months measures r) := by
  rw [cumulize]
  induction measures generalizing r with
  | nil => exact h
  | cons m ms ih =>
    exact ih _ (cumulMeasure_leafShape _ _ _ h)

/-! ## Sorting and in-place-update lemmas -/

theorem insertCmp_perm (cmp : Rec → Rec → Int) (x : Rec) (l : List Rec) :
    (insertCmp cmp x l).Perm (x :: l) := by
  induction l with
  | nil => exact List.Perm.refl _
  | cons y ys ih =>
    rw [insertCmp]
    split
    · exact List.Perm.refl _
    · exact (ih.cons y).trans (List.Perm.swap x y ys)

theorem sortCmp_perm (cmp : Rec → Rec → Int) (l : List Rec) : (sortCmp cmp l).Perm l := by
  have key : ∀ (l acc : List Rec),
      (l.foldl (fun acc x => insertCmp cmp x acc) acc).Perm (acc ++ l) := by
    intro l
    induction l with
    | nil => intro acc; simp
    | cons x xs ih =>
      intro acc
      have h1 := ih (insertCmp cmp x acc)
      have h2 : (insertCmp cmp x acc ++ xs).Perm ((x :: acc) ++ xs) :=
        (insertCmp_perm cmp x acc).append_right xs
      have h3 : ((x :: acc) ++ xs).Perm (acc ++ x :: xs) := List.perm_middle.symm
      exact (h1.trans h2).trans h3
  simpa [sortCmp] using key l []

theorem mem_sortCmp (cmp : Rec → Rec → Int) (l : List Rec) (r : Rec) :
    r ∈ sortCmp cmp l ↔ r ∈ l :=
  (sortCmp_perm cmp l).mem_iff

theorem mem_modifyAt (l : List Rec) (i : Nat) (f : Rec → Rec) (r : Rec)
    (h : r ∈ modifyAt l i f) : r ∈ l ∨ ∃ x ∈ l, r = f x := by
  induction l generalizing i with
  | nil => exact absurd h (List.not_mem_nil r)
  | cons x xs ih =>
    cases i with
    | zero =>
      rcases List.mem_cons.mp h with rfl | h
      · exact Or.inr ⟨x, List.mem_cons_self x xs, rfl⟩
      · exact Or.inl (List.mem_cons_of_mem x h)
    | succ i =>
      rcases List.mem_cons.mp h with rfl | h
      · exact Or.inl (List.mem_cons_self r xs)
      · rcases ih i h with h | ⟨y, hy, hr⟩
        · exact Or.inl (List.mem_cons_of_mem x h)
        · exact Or.inr ⟨y, List.mem_cons_of_mem x hy, hr⟩

theorem modifyAt_of_lt (l : List Rec) (i : Nat) (f : Rec → Rec) (h : i < l.length) :
    ∃ x ∈ l, modifyAt l i f = l.take i ++ f x :: l.drop (i + 1) := by
  induction l generalizing i with
  | nil => simp at h
  | cons y ys ih =>
    cases i with
    | zero => exact ⟨y, List.mem_cons_self y ys, rfl⟩
    | succ i =>
      obtain ⟨x, hx, he⟩ := ih i (by simpa using h)
      refine ⟨x, List.mem_cons_of_mem y hx, ?_⟩
      simp [modifyAt, he]

/-! ## Field preservation through the row and cumulative passes -/

theorem get_setOrder_ne (cfg : Cfg) (row : Row) (r : Rec) (k : String)
    (h : k ≠ "order") : (setOrder cfg row r).get k = r.get k := by
  rw [setOrder]
  split
  · split
    · exact Rec.get_set_ne _ _ _ _ (fun e => h e.symm)
    · rfl
  · rfl

theorem get_setMeasures_no_space (cfg : Cfg) (monthStr : String) (row : Row) (r : Rec)
    (k : String) (h : ' ' ∉ k.data) : (setMeasures cfg monthStr row r).get k = r.get k := by
  rw [setMeasures]
  refine get_foldl_set _ _ _ _ _ ?_
  intro x _ e
  rw [← e] at h
  exact h (sep_key_has_space _ _)

theorem get_setGap_no_space (cfg : Cfg) (monthStr : String) (row : Row) (r : Rec)
    (k : String) (h : ' ' ∉ k.data) : (setGap cfg monthStr row r).get k = r.get k := by
  rw [setGap]
  split
  · exact Rec.get_set_ne _ _ _ _ (fun e => h (e ▸ gap_key_has_space _))
  · rfl

/-- The per-row update leaves every space-free field other than `order`
unchanged; in particular all `category` fields. -/
theorem get_updRecord_no_space (cfg : Cfg) (monthStr : String) (row : Row) (r : Rec)
    (k : String) (hsp : ' ' ∉ k.data) (ho : k ≠ "order") :
    (updRecord cfg monthStr row r).get k = r.get k := by
  rw [updRecord, get_setGap_no_space _ _ _ _ _ hsp, get_setMeasures_no_space _ _ _ _ _ hsp,
    get_setOrder_ne _ _ _ _ ho]

theorem get_cumulMeasure_no_space (months : List Val) (measure : String) (r : Rec)
    (k : String) (h : ' ' ∉ k.data) : (cumulMeasure months measure r).get k = r.get k := by
  rw [cumulMeasure]
  have hk : ("Cumul || " ++ measure) ≠ k := by
    intro e
    rw [← e] at h
    exact h (cumul_key_has_space _)
  rw [get_foldl_set _ _ _ _ _ (fun x _ => hk)]
  exact Rec.get_set_ne _ _ _ _ hk

/-- The cumulative pass leaves every space-free field unchanged. -/
theorem get_cumulize_no_space (months : List Val) (measures : List String) (r : Rec)
    (k : String) (h : ' ' ∉ k.data) : (cumulize months measures r).get k = r.get k := by
  rw [cumulize]
  induction measures generalizing r with
  | nil => rfl
  | cons m ms ih =>
    rw [List.foldl_cons, ih, get_cumulMeasure_no_space _ _ _ _ h]

/-! ## The row-loop invariant -/

/-- The composite category key a row produces (the `category` field of
its category block): a string when at least one category level exists,
`undefined` otherwise. -/
def rowCategory (cfg : Cfg) (row : Row) : Val := (buildCats cfg row).get "category"

theorem get_updRecord_category (cfg : Cfg) (monthStr : String) (row : Row) (r : Rec) :
    (updRecord cfg monthStr row r).get "category" = r.get "category" :=
  get_updRecord_no_space _ _ _ _ _ (by decide) (by decide)

theorem buildCats_category_ne_vnan (cfg : Cfg) (row : Row) :
    (buildCats cfg row).get "category" ≠ vnan := by
  rw [buildCats]
  generalize (List.range cfg.numberOfCategories) = l
  have key : ∀ (l : List Nat) (acc : String × Rec), acc.2.get "category" ≠ vnan →
      ((l.foldl (fun (acc : String × Rec) i =>
        let category := row.getD (cfg.categoryIndexAsOf + i) vundef
        let display := category.jsToString
        let categoryKey := (if acc.1 ≠ "" then acc.1 ++ " || " else "") ++ display
        (categoryKey,
          (acc.2.set "category" (vstr categoryKey)).set
            ("category-" ++ Nat.repr (i + 1)) (vstr display))) acc).2).get "category" ≠ vnan := by
    intro l
    induction l with
    | nil => exact fun acc h => h
    | cons x xs ih =>
      intro acc h
      refine ih _ ?_
      rw [Rec.get_set_ne _ _ _ _ (catkey_ne_category _), Rec.get_set_self]
      intro he
      exact Val.noConfusion he
  exact key l _ (by intro h; exact Val.noConfusion h)

theorem rowCategory_ne_vnan (cfg : Cfg) (row : Row) : rowCategory cfg row ≠ vnan :=
  buildCats_category_ne_vnan cfg row

theorem jsEqb_eq_true_iff {a b : Val} (ha : a ≠ vnan) : jsEqb a b = true ↔ a = b := by
  rw [jsEqb]
  by_cases hb : b = vnan
  · subst hb
    rw [if_pos (Or.inr rfl)]
    constructor
    · intro h
      exact Bool.noConfusion h
    · intro h
      exact absurd h ha
  · rw [if_neg (by simp [ha, hb])]
    exact beq_iff_eq

theorem map_category_modifyAt (l : List Rec) (i : Nat) (f : Rec → Rec)
    (hf : ∀ x, (f x).get "category" = x.get "category") :
    (modifyAt l i f).map (fun r => r.get "category") = l.map (fun r => r.get "category") := by
  induction l generalizing i with
  | nil => rfl
  | cons x xs ih =>
    cases i with
    | zero => simp [modifyAt, hf]
    | succ i => simp [modifyAt, ih]

/-- The invariant maintained by the row loop: every record is
leaf-shaped, the composite keys are pairwise distinct, and the record
keys are exactly the keys of the processed rows. -/
def StageInv (cfg : Cfg) (rows : List Row) (st : Stage) : Prop :=
  (∀ r ∈ st.records, LeafShape r) ∧
  (st.records.map (fun r => r.get "category")).Pairwise (fun a b => a ≠ b) ∧
  (∀ r ∈ st.records, ∃ row ∈ rows, r.get "category" = rowCategory cfg row) ∧
  (∀ row ∈ rows, ∃ r ∈ st.records, r.get "category" = rowCategory cfg row)

theorem applyRow_inv (cfg : Cfg) (rows : List Row) (st : Stage) (row : Row)
    (h : StageInv cfg rows st) : StageInv cfg (rows ++ [row]) (applyRow cfg st row) := by
  obtain ⟨hShape, hPairwise, hSound, hComplete⟩ := h
  rw [applyRow]
  cases hFind : st.records.findIdx? (fun r =>
      jsEqb (r.get "category") ((buildCats cfg row).get "category")) with
  | some i =>
    simp only
    have hmap := map_category_modifyAt st.records i
      (updRecord cfg (row.getD 0 vundef).jsToString row)
      (fun x => get_updRecord_category cfg _ row x)
    obtain ⟨hlt, hp, _⟩ := List.findIdx?_eq_some_iff_getElem.mp hFind
    have hkey : st.records[i].get "category" = rowCategory cfg row := by
      have hne : st.records[i].get "category" ≠ vnan := by
        obtain ⟨row', _, he⟩ := hSound _ (List.getElem_mem hlt)
        rw [he]
        exact rowCategory_ne_vnan cfg row'
      exact (jsEqb_eq_true_iff hne).mp hp
    refine ⟨?_, ?_, ?_, ?_⟩
    · intro r hr
      rcases mem_modifyAt _ _ _ _ hr with hr | ⟨x, hx, rfl⟩
      · exact hShape r hr
      · exact updRecord_leafShape _ _ _ _ (hShape x hx)
    · rw [hmap]
      exact hPairwise
    · intro r hr
      rcases mem_modifyAt _ _ _ _ hr with hr | ⟨x, hx, rfl⟩
      · obtain ⟨row', hrow', he⟩ := hSound r hr
        exact ⟨row', List.mem_append_left _ hrow', he⟩
      · obtain ⟨row', hrow', he⟩ := hSound x hx
        exact ⟨row', List.mem_append_left _ hrow',
          (get_updRecord_category cfg _ row x).trans he⟩
    · intro row' hrow'
      rcases List.mem_append.mp hrow' with hrow' | hrow'
      · obtain ⟨r, hr, he⟩ := hComplete row' hrow'
        have : r.get "category" ∈ (modifyAt st.records i
            (updRecord cfg (row.getD 0 vundef).jsToString row)).map
            (fun r => r.get "category") := by
          rw [hmap]
          exact List.mem_map_of_mem _ hr
        obtain ⟨r', hr', he'⟩ := List.mem_map.mp this
        exact ⟨r', hr', he'.trans he⟩
      · rcases List.mem_singleton.mp hrow' with rfl
        have hmem : st.records[i].get "category" ∈
            (st.records.map (fun r => r.get "category")) :=
          List.mem_map_of_mem _ (List.getElem_mem hlt)
        rw [← hmap] at hmem
        obtain ⟨r', hr', he'⟩ := List.mem_map.mp hmem
        exact ⟨r', hr', he'.trans hkey⟩
  | none =>
    simp only
    have hnone : ∀ x ∈ st.records, jsEqb (x.get "category") (rowCategory cfg row) = false :=
      List.findIdx?_eq_none_iff.mp hFind
    have hNewKey : (updRecord cfg (row.getD 0 vundef).jsToString row
        (buildCats cfg row)).get "category" = rowCategory cfg row :=
      get_updRecord_category cfg _ row _
    refine ⟨?_, ?_, ?_, ?_⟩
    · intro r hr
      rcases List.mem_append.mp hr with hr | hr
      · exact hShape r hr
      · rcases List.mem_singleton.mp hr with rfl
        exact updRecord_leafShape _ _ _ _ (buildCats_leafShape cfg row)
    · rw [List.map_append]
      rw [List.pairwise_append]
      refine ⟨hPairwise, by simp, ?_⟩
      intro a ha b hb
      rcases List.mem_map.mp ha with ⟨r, hr, rfl⟩
      simp only [List.map_cons, List.map_nil, List.mem_singleton] at hb
      subst hb
      rw [hNewKey]
      have hne : r.get "category" ≠ vnan := by
        obtain ⟨row', _, he⟩ := hSound r hr
        rw [he]
        exact rowCategory_ne_vnan cfg row'
      intro he
      rw [← (jsEqb_eq_true_iff hne)] at he
      rw [hnone r hr] at he
      exact Bool.noConfusion he
    · intro r hr
      rcases List.mem_append.mp hr with hr | hr
      · obtain ⟨row', hrow', he⟩ := hSound r hr
        exact ⟨row', List.mem_append_left _ hrow', he⟩
      · rcases List.mem_singleton.mp hr with rfl
        exact ⟨row, List.mem_append_right _ (List.mem_singleton_self row), hNewKey⟩
    · intro row' hrow'
      rcases List.mem_append.mp hrow' with hrow' | hrow'
      · obtain ⟨r, hr, he⟩ := hComplete row' hrow'
        exact ⟨r, List.mem_append_left _ hr, he⟩
      · rcases List.mem_singleton.mp hrow' with rfl
        exact ⟨_, List.mem_append_right _ (List.mem_singleton_self _), hNewKey⟩

theorem stageA_inv (cfg : Cfg) (data : List Row) : StageInv cfg data (stageA cfg data) := by
  rw [stageA]
  have key : ∀ (l : List Row) (rows : List Row) (st : Stage), StageInv cfg rows st →
      StageInv cfg (rows ++ l) (l.foldl (applyRow cfg) st) := by
    intro l
    induction l with
    | nil => intro rows st h; simpa using h
    | cons row rest ih =>
      intro rows st h
      have step := applyRow_inv cfg rows st row h
      have := ih (rows ++ [row]) _ step
      simpa using this
  have init : StageInv cfg [] ⟨[], []⟩ := by
    refine ⟨?_, ?_, ?_, ?_⟩ <;> simp [StageInv]
  simpa using key data [] _ init

/-! ## Separator parsing and distinct-key folds -/

/-- For space-free prefixes, the `' || '`-joined key determines the
prefix: the separator's space is the first space of the string. -/
theorem sep_split_left {a c : String} (b d : String) (ha : ' ' ∉ a.data)
    (hc : ' ' ∉ c.data) (h : a ++ " || " ++ b = c ++ " || " ++ d) : a = c := by
  rw [string_eq_iff_data] at h
  rw [String.data_append, String.data_append, String.data_append, String.data_append] at h
  have h' : a.data ++ (" || ".data ++ b.data) = c.data ++ (" || ".data ++ d.data) := by
    rw [← List.append_assoc, ← List.append_assoc]
    exact h
  have key2 : ∀ (x : List Char), (' ' ∉ x) → ∀ (y : List Char),
      (x ++ (" || ".data ++ y)).takeWhile (fun ch => ch ≠ ' ') = x := by
    intro x hx y
    have h1 : ∀ ch ∈ x, (fun ch => decide (ch ≠ ' ')) ch = true := by
      intro ch hch
      simp only [decide_eq_true_iff]
      intro he
      exact hx (he ▸ hch)
    rw [List.takeWhile_append_of_pos h1]
    have h2 : (" || ".data ++ y) = ' ' :: ("|| ".data ++ y) := rfl
    rw [h2]
    simp [List.takeWhile]
  have ha2 := key2 a.data ha b.data
  have hc2 := key2 c.data hc d.data
  rw [string_eq_iff_data]
  calc a.data = (a.data ++ (" || ".data ++ b.data)).takeWhile (fun ch => ch ≠ ' ') := ha2.symm
    _ = (c.data ++ (" || ".data ++ d.data)).takeWhile (fun ch => ch ≠ ' ') := by rw [h']
    _ = c.data := hc2

theorem sep_split_right {a c : String} (b d : String) (ha : ' ' ∉ a.data)
    (hc : ' ' ∉ c.data) (h : a ++ " || " ++ b = c ++ " || " ++ d) : b = d := by
  have hac := sep_split_left b d ha hc h
  subst hac
  rw [string_eq_iff_data] at h ⊢
  rw [String.data_append, String.data_append, String.data_append, String.data_append] at h
  exact List.append_cancel_left h

/-- Distinct labels give distinct cumulative keys. -/
theorem cumul_key_inj {m m' : String} (h : ("Cumul || " ++ m) = ("Cumul || " ++ m')) :
    m = m' := by
  rw [string_eq_iff_data, String.data_append, String.data_append] at h
  rw [string_eq_iff_data]
  exact List.append_cancel_left h

/-- A cumulative key never equals a month/measure key whose month part
is a space-free string other than `'Cumul'`. -/
theorem cumul_key_ne_month_key (m : String) (ms : String) (m' : String)
    (hms : ' ' ∉ ms.data) (hne : ms ≠ "Cumul") :
    ("Cumul || " ++ m) ≠ (ms ++ " || " ++ m') := by
  intro h
  have : ("Cumul" ++ " || " ++ m) = (ms ++ " || " ++ m') := by
    rw [← h]
    rfl
  exact hne (sep_split_left m m' (by decide) hms this).symm

/-- Reading the key written by a distinct-keys fold whose values do not
depend on the accumulator. -/
theorem get_foldl_set_nodup {α : Type} (l : List α) (keyf : α → String) (valf : α → Val)
    (r : Rec) (x : α) (hx : x ∈ l) (hnodup : (l.map keyf).Nodup) :
    (l.foldl (fun r y => r.set (keyf y) (valf y)) r).get (keyf x) = valf x := by
  induction l generalizing r with
  | nil => exact absurd hx (List.not_mem_nil x)
  | cons y ys ih =>
    rw [List.map_cons, List.nodup_cons] at hnodup
    rcases List.mem_cons.mp hx with rfl | hx
    · rw [List.foldl_cons]
      have : ∀ z ∈ ys, keyf z ≠ keyf x := by
        intro z hz he
        exact hnodup.1 (he ▸ List.mem_map_of_mem keyf hz)
      rw [get_foldl_set ys keyf (fun z _ => valf z) _ _ this]
      exact Rec.get_set_self _ _ _
    · rw [List.foldl_cons]
      exact ih _ hx hnodup.2

theorem keys_set_nodup (r : Rec) (k : String) (v : Val) (h : r.keys.Nodup) :
    (r.set k v).keys.Nodup := by
  induction r with
  | nil => simp [Rec.set, Rec.keys]
  | cons p rest ih =>
    obtain ⟨k₀, v₀⟩ := p
    rw [Rec.keys_cons] at h
    rcases List.nodup_cons.mp h with ⟨hk₀, hrest⟩
    rw [Rec.set]
    by_cases he : k₀ = k
    · simp only [he, if_pos]
      rw [Rec.keys_cons]
      exact List.nodup_cons.mpr ⟨he ▸ hk₀, hrest⟩
    · simp only [he, if_neg, not_false_iff]
      rw [Rec.keys_cons]
      refine List.nodup_cons.mpr ⟨?_, ih hrest⟩
      intro hmem
      rcases (Rec.mem_keys_set rest k k₀ v).mp hmem with hmem | rfl
      · exact hk₀ hmem
      · exact he rfl

theorem keys_nodup_foldl_set {α : Type} (l : List α) (keyf : α → String)
    (valf : α → Rec → Val) (r : Rec) (h : r.keys.Nodup) :
    (l.foldl (fun r x => r.set (keyf x) (valf x r)) r).keys.Nodup := by
  induction l generalizing r with
  | nil => exact h
  | cons x xs ih =>
    rw [List.foldl_cons]
    exact ih _ (keys_set_nodup _ _ _ h)

/-- Reading after a fold that writes `F k` at every key `k` of a list:
the value is `F k` when `k` was written (duplicates harmless since every
write at `k` carries the same value), else the original. -/
theorem get_foldl_setF (ks : List String) (F : String → Val) (r : Rec) (k0 : String) :
    (ks.foldl (fun r k => r.set k (F k)) r).get k0 = if k0 ∈ ks then F k0 else r.get k0 := by
  induction ks generalizing r with
  | nil => simp
  | cons k ks ih =>
    rw [List.foldl_cons, ih]
    by_cases hk : k0 ∈ ks
    · simp [hk, List.mem_cons_of_mem]
    · by_cases he : k0 = k
      · subst he
        simp [hk, Rec.get_set_self]
      · simp only [hk, if_neg, not_false_iff, List.mem_cons]
        rw [Rec.get_set_ne _ _ _ _ (fun e => he e.symm)]
        simp [he, hk]

/-! ## Facts about `measuresInAllRecords`, `firstSeen` and the sorted leaves -/

theorem mem_mIAR_sub (cfg : Cfg) (records : List Rec) (k : String)
    (h : k ∈ measuresInAllRecords cfg records) : k ∈ (records.headD []).keys := by
  rw [measuresInAllRecords] at h
  rcases List.mem_map.mp h with ⟨p, hp, rfl⟩
  have hp2 := List.mem_of_mem_filter hp
  have : p.2 ∈ ((records.headD []).keys.enum).map Prod.snd := List.mem_map_of_mem _ hp2
  rw [List.enum] at this
  rw [List.enumFrom_map_snd] at this
  exact this

theorem stageA_records_leafShape (cfg : Cfg) (data : List Row) :
    ∀ r ∈ (stageA cfg data).records, LeafShape r := (stageA_inv cfg data).1

theorem stageB_leafShape (cfg : Cfg) (data : List Row) :
    ∀ r ∈ stageB cfg data, LeafShape r := by
  intro r hr
  rw [stageB] at hr
  rcases List.mem_map.mp hr with ⟨x, hx, rfl⟩
  exact cumulize_leafShape _ _ _ (stageA_records_leafShape cfg data x hx)

theorem sortedLeaves_leafShape (cfg : Cfg) (data : List Row) :
    ∀ r ∈ sortedLeaves cfg data, LeafShape r := by
  intro r hr
  rw [sortedLeaves, mem_sortCmp] at hr
  exact stageB_leafShape cfg data r hr

theorem mIAR_goodKey (cfg : Cfg) (data : List Row) :
    ∀ k ∈ mIAROf cfg data, goodKey k := by
  intro k hk
  have hsub := mem_mIAR_sub cfg (sortedLeaves cfg data) k hk
  cases hl : sortedLeaves cfg data with
  | nil =>
      rw [hl] at hsub
      exact absurd hsub (List.not_mem_nil k)
  | cons r rest =>
      have hsh : LeafShape r := sortedLeaves_leafShape cfg data r (by rw [hl]; exact List.mem_cons_self r rest)
      rw [hl] at hsub
      exact hsh k hsub

theorem subtotal_not_mem_mIAR (cfg : Cfg) (data : List Row) :
    "subtotal" ∉ mIAROf cfg data := by
  intro h
  exact goodKey_ne_subtotal _ (mIAR_goodKey cfg data _ h) rfl

theorem grandtotal_not_mem_mIAR (cfg : Cfg) (data : List Row) :
    "grandtotal" ∉ mIAROf cfg data := by
  intro h
  exact goodKey_ne_grandtotal _ (mIAR_goodKey cfg data _ h) rfl

theorem firstSeen_nodup (records : List Rec) (key : String) : (firstSeen records key).Nodup := by
  rw [firstSeen]
  have h : ∀ (l : List Rec) (acc : List Val), acc.Nodup →
      (l.foldl (fun acc r => if r.get key ∈ acc then acc else acc ++ [r.get key]) acc).Nodup := by
    intro l
    induction l with
    | nil => exact fun acc h => h
    | cons r rest ih =>
      intro acc hacc
      rw [List.foldl_cons]
      by_cases hmem : r.get key ∈ acc
      · simp only [hmem, if_pos]
        exact ih acc hacc
      · simp only [hmem, if_neg, not_false_iff]
        refine ih _ ?_
        rw [List.nodup_append]
        refine ⟨hacc, List.nodup_singleton _, ?_⟩
        intro a ha hb
        rcases List.mem_singleton.mp hb with rfl
        exact hmem ha
  exact h records [] List.nodup_nil

theorem mem_firstSeen (records : List Rec) (key : String) (v : Val)
    (h : v ∈ firstSeen records key) : ∃ r ∈ records, r.get key = v := by
  rw [firstSeen] at h
  have key2 : ∀ (l : List Rec) (acc : List Val),
      v ∈ (l.foldl (fun acc r => if r.get key ∈ acc then acc else acc ++ [r.get key]) acc) →
      v ∈ acc ∨ ∃ r ∈ l, r.get key = v := by
    intro l
    induction l with
    | nil => exact fun acc h => Or.inl h
    | cons r rest ih =>
      intro acc hmem
      rw [List.foldl_cons] at hmem
      by_cases hr : r.get key ∈ acc
      · simp only [hr, if_pos] at hmem
        rcases ih acc hmem with h | ⟨x, hx, he⟩
        · exact Or.inl h
        · exact Or.inr ⟨x, List.mem_cons_of_mem r hx, he⟩
      · simp only [hr, if_neg, not_false_iff] at hmem
        rcases ih _ hmem with h | ⟨x, hx, he⟩
        · rcases List.mem_append.mp h with h | h
          · exact Or.inl h
          · rcases List.mem_singleton.mp h with rfl
            exact Or.inr ⟨r, List.mem_cons_self r rest, rfl⟩
        · exact Or.inr ⟨x, List.mem_cons_of_mem r hx, he⟩
  rcases key2 records [] h with h | h
  · exact absurd h (List.not_mem_nil v)
  · exact h

/-- Reading after a fold each of whose steps preserves the field. -/
theorem get_foldl_pres {α : Type} (l : List α) (step : Rec → α → Rec) (r : Rec) (k : String)
    (h : ∀ r x, x ∈ l → (step r x).get k = r.get k) : (l.foldl step r).get k = r.get k := by
  induction l generalizing r with
  | nil => rfl
  | cons x xs ih =>
    rw [List.foldl_cons, ih _ (fun r y hy => h r y (List.mem_cons_of_mem x hy)),
      h r x (List.mem_cons_self x xs)]

/-- A generic per-record predicate carried through the row loop. -/
theorem stageA_records_pred (cfg : Cfg) (data : List Row) (P : Rec → Prop)
    (hbc : ∀ row, P (buildCats cfg row))
    (hupd : ∀ ms row r, P r → P (updRecord cfg ms row r)) :
    ∀ r ∈ (stageA cfg data).records, P r := by
  rw [stageA]
  have key : ∀ (l : List Row) (st : Stage), (∀ r ∈ st.records, P r) →
      ∀ r ∈ (l.foldl (applyRow cfg) st).records, P r := by
    intro l
    induction l with
    | nil => exact fun st h => h
    | cons row rest ih =>
      intro st h
      refine ih _ ?_
      intro r hr
      rw [applyRow] at hr
      cases hFind : st.records.findIdx? (fun x =>
          jsEqb (x.get "category") ((buildCats cfg row).get "category")) with
      | some i =>
        rw [hFind] at hr
        simp only at hr
        rcases mem_modifyAt _ _ _ _ hr with hr | ⟨x, hx, rfl⟩
        · exact h r hr
        · exact hupd _ _ _ (h x hx)
      | none =>
        rw [hFind] at hr
        simp only at hr
        rcases List.mem_append.mp hr with hr | hr
        · exact h r hr
        · rcases List.mem_singleton.mp hr with rfl
          exact hupd _ _ _ (hbc row)
  intro r hr
  exact key data ⟨[], []⟩ (by intro r hr; exact absurd hr (List.not_mem_nil r)) r hr

/-- The `category-1` field of every leaf is a string once at least one
category level exists. -/
theorem stageA_cat1_vstr (cfg : Cfg) (data : List Row) (hN : 1 ≤ cfg.numberOfCategories) :
    ∀ r ∈ (stageA cfg data).records, ∃ s, r.get "category-1" = vstr s := by
  refine stageA_records_pred cfg data _ ?_ ?_
  · intro row
    rw [buildCats]
    have hmem : 0 ∈ List.range cfg.numberOfCategories := List.mem_range.mpr hN
    generalize List.range cfg.numberOfCategories = l at hmem ⊢
    have key : ∀ (l : List Nat) (acc : String × Rec),
        (0 ∈ l ∨ ∃ s, acc.2.get "category-1" = vstr s) →
        ∃ s, ((l.foldl (fun (acc : String × Rec) i =>
          let category := row.getD (cfg.categoryIndexAsOf + i) vundef
          let display := category.jsToString
          let categoryKey := (if acc.1 ≠ "" then acc.1 ++ " || " else "") ++ display
          (categoryKey,
            (acc.2.set "category" (vstr categoryKey)).set
              ("category-" ++ Nat.repr (i + 1)) (vstr display))) acc).2).get "category-1" =
          vstr s := by
      intro l
      induction l with
      | nil =>
        intro acc h
        rcases h with h | h
        · exact absurd h (List.not_mem_nil 0)
        · exact h
      | cons x xs ih =>
        intro acc h
        rw [List.foldl_cons]
        refine ih _ ?_
        by_cases hx : x = 0
        · subst hx
          refine Or.inr ?_
          have h1 : ("category-" ++ Nat.repr (0 + 1)) = "category-1" := by decide
          simp only [h1, Rec.get_set_self]
          exact ⟨_, rfl⟩
        · rcases h with h | ⟨s, hs⟩
          · rcases List.mem_cons.mp h with h | h
            · exact absurd h.symm hx
            · exact Or.inl h
          · by_cases he : ("category-" ++ Nat.repr (x + 1)) = "category-1"
            · refine Or.inr ?_
              simp only [he, Rec.get_set_self]
              exact ⟨_, rfl⟩
            · refine Or.inr ⟨s, ?_⟩
              rw [Rec.get_set_ne _ _ _ _ he,
                Rec.get_set_ne _ _ _ _ (by decide), hs]
    exact key l _ (Or.inl hmem)
  · intro ms row r ⟨s, hs⟩
    refine ⟨s, ?_⟩
    rw [get_updRecord_no_space _ _ _ _ _ (by decide) (by decide), hs]

/-! ## Sum lemmas -/

/-- The exact numeric content of a coerced field, 0 for non-numbers
(only used under hypotheses that make the field numeric). -/
def numVal (r : Rec) (k : String) : Int :=
  match toNumber (r.get k) with
  | vnum n => n
  | _ => 0

theorem nadd_vnan (x : Val) : nadd vnan x = vnan := by
  cases x <;> rfl

theorem nadd_vnan_right (x : Val) : nadd x vnan = vnan := by
  cases x <;> rfl

theorem sumField_num (l : List Rec) (k : String)
    (h : ∀ r ∈ l, ∃ n : Int, toNumber (r.get k) = vnum n) :
    sumField l k = vnum ((l.map (fun r => numVal r k)).sum) := by
  rw [sumField]
  have key : ∀ (l : List Rec) (a : Int), (∀ r ∈ l, ∃ n : Int, toNumber (r.get k) = vnum n) →
      (l.foldl (fun acc r => nadd acc (toNumber (r.get k))) (vnum a)) =
        vnum (a + (l.map (fun r => numVal r k)).sum) := by
    intro l
    induction l with
    | nil => intro a h; simp
    | cons r rest ih =>
      intro a h
      obtain ⟨n, hn⟩ := h r (List.mem_cons_self r rest)
      rw [List.foldl_cons, hn]
      have : nadd (vnum a) (vnum n) = vnum (a + n) := rfl
      rw [this, ih _ (fun x hx => h x (List.mem_cons_of_mem r hx))]
      have : numVal r k = n := by
        rw [numVal, hn]
      rw [List.map_cons, List.sum_cons, this]
      congr 1
      ring
  simpa using key l 0 h

theorem foldl_nadd_from_vnan (l : List Rec) (k : String) :
    (l.foldl (fun acc r => nadd acc (toNumber (r.get k))) vnan) = vnan := by
  induction l with
  | nil => rfl
  | cons r rest ih =>
    rw [List.foldl_cons, nadd_vnan, ih]

theorem sumField_nan (l : List Rec) (k : String) (r0 : Rec) (h0 : r0 ∈ l)
    (hnan : toNumber (r0.get k) = vnan) : sumField l k = vnan := by
  rw [sumField]
  have key : ∀ (l : List Rec) (acc : Val), (∃ r0 ∈ l, toNumber (r0.get k) = vnan) →
      (l.foldl (fun acc r => nadd acc (toNumber (r.get k))) acc) = vnan := by
    intro l
    induction l with
    | nil =>
      rintro acc ⟨r0, h0, _⟩
      exact absurd h0 (List.not_mem_nil r0)
    | cons r rest ih =>
      rintro acc ⟨r0, h0, hr0⟩
      rw [List.foldl_cons]
      rcases List.mem_cons.mp h0 with rfl | h0
      · rw [hr0, nadd_vnan_right]
        exact foldl_nadd_from_vnan rest k
      · exact ih _ ⟨r0, h0, hr0⟩
  exact key l _ ⟨r0, h0, hnan⟩

/-- A JS sum is always a number or `NaN`, never a string, boolean or
`undefined`. -/
theorem sumField_num_or_nan (l : List Rec) (k : String) :
    (∃ n : Int, sumField l k = vnum n) ∨ sumField l k = vnan := by
  rw [sumField]
  have key : ∀ (l : List Rec) (acc : Val), (∃ n : Int, acc = vnum n) ∨ acc = vnan →
      (∃ n : Int, (l.foldl (fun acc r => nadd acc (toNumber (r.get k))) acc) = vnum n) ∨
        (l.foldl (fun acc r => nadd acc (toNumber (r.get k))) acc) = vnan := by
    intro l
    induction l with
    | nil => exact fun acc h => h
    | cons r rest ih =>
      intro acc h
      rw [List.foldl_cons]
      refine ih _ ?_
      rcases h with ⟨n, rfl⟩ | rfl
      · cases hv : toNumber (r.get k) with
        | vnum m => exact Or.inl ⟨n + m, rfl⟩
        | vstr s => exact Or.inr rfl
        | vnan => exact Or.inr rfl
        | vbool b => exact Or.inr rfl
        | vundef => exact Or.inr rfl
      · exact Or.inr (by rw [nadd_vnan])
  exact key l _ (Or.inl ⟨0, rfl⟩)

/-! ## Characterizing subtotal and grand-total records -/

theorem get_cons_ne (k₀ : String) (v₀ : Val) (r : Rec) (k : String) (h : k₀ ≠ k) :
    Rec.get ((k₀, v₀) :: r) k = Rec.get r k := by
  simp [Rec.get, h]

theorem get_cons_eq (k₀ : String) (v₀ : Val) (r : Rec) :
    Rec.get ((k₀, v₀) :: r) k₀ = v₀ := by
  simp [Rec.get]

/-- Reading any field of the per-level label block of a synthesized
record. -/
theorem catfold_get (n : Nat) (label : Val) (base : Rec) (k : String) :
    Rec.get ((List.range n).foldl
        (fun r i => Rec.set r ("category-" ++ Nat.repr (i + 1)) label) base) k =
      if k ∈ (List.range n).map (fun i => "category-" ++ Nat.repr (i + 1)) then label
      else base.get k := by
  rw [← get_foldl_setF ((List.range n).map (fun i => "category-" ++ Nat.repr (i + 1)))
    (fun _ => label) base k, List.foldl_map]

theorem mkSubtotal_get (cfg : Cfg) (mIAR : List String) (records : List Rec) (label : Val)
    (k : String) :
    (mkSubtotal cfg mIAR records label).get k =
      if k ∈ mIAR then sumField (records.filter (subtotalSel label)) k
      else Rec.get ((List.range cfg.numberOfCategories).foldl
        (fun r i => Rec.set r ("category-" ++ Nat.repr (i + 1)) label)
        ([("category", label), ("subtotal", vbool true)] : Rec)) k := by
  rw [mkSubtotal]
  exact get_foldl_setF _ _ _ _

theorem mkSubtotal_get_value (cfg : Cfg) (mIAR : List String) (records : List Rec) (label : Val)
    (k : String) (hk : k ∈ mIAR) :
    (mkSubtotal cfg mIAR records label).get k =
      sumField (records.filter (subtotalSel label)) k := by
  rw [mkSubtotal_get, if_pos hk]

theorem mkSubtotal_get_subtotal (cfg : Cfg) (mIAR : List String) (records : List Rec)
    (label : Val) (hm : "subtotal" ∉ mIAR) :
    (mkSubtotal cfg mIAR records label).get "subtotal" = vbool true := by
  rw [mkSubtotal_get, if_neg hm, catfold_get, if_neg, get_cons_ne _ _ _ _ (by decide),
    get_cons_eq]
  intro h
  rcases List.mem_map.mp h with ⟨i, _, he⟩
  exact catkey_ne_subtotal _ he

theorem mkSubtotal_get_grandtotal (cfg : Cfg) (mIAR : List String) (records : List Rec)
    (label : Val) (hm : "grandtotal" ∉ mIAR) :
    (mkSubtotal cfg mIAR records label).get "grandtotal" = vundef := by
  rw [mkSubtotal_get, if_neg hm, catfold_get, if_neg, get_cons_ne _ _ _ _ (by decide),
    get_cons_ne _ _ _ _ (by decide)]
  · rfl
  · intro h
    rcases List.mem_map.mp h with ⟨i, _, he⟩
    exact catkey_ne_grandtotal _ he

/-- The `category-1` field of a subtotal record is its label, a JS sum
(a number or `NaN`), or `undefined` — never some other label. -/
theorem mkSubtotal_cat1_cases (cfg : Cfg) (mIAR : List String) (records : List Rec)
    (label : Val) :
    (mkSubtotal cfg mIAR records label).get "category-1" = label ∨
    (∃ n : Int, (mkSubtotal cfg mIAR records label).get "category-1" = vnum n) ∨
    (mkSubtotal cfg mIAR records label).get "category-1" = vnan ∨
    (mkSubtotal cfg mIAR records label).get "category-1" = vundef := by
  rw [mkSubtotal_get]
  by_cases hm : "category-1" ∈ mIAR
  · rw [if_pos hm]
    rcases sumField_num_or_nan (records.filter (subtotalSel label)) "category-1" with ⟨n, h⟩ | h
    · exact Or.inr (Or.inl ⟨n, h⟩)
    · exact Or.inr (Or.inr (Or.inl h))
  · rw [if_neg hm, catfold_get]
    by_cases hc : ("category-1" : String) ∈
        (List.range cfg.numberOfCategories).map (fun i => "category-" ++ Nat.repr (i + 1))
    · rw [if_pos hc]
      exact Or.inl rfl
    · rw [if_neg hc, get_cons_ne _ _ _ _ (by decide), get_cons_ne _ _ _ _ (by decide)]
      exact Or.inr (Or.inr (Or.inr rfl))

theorem mkGrandTotal_get (cfg : Cfg) (mIAR : List String) (records : List Rec) (k : String) :
    (mkGrandTotal cfg mIAR records).get k =
      if k ∈ mIAR then sumField (records.filter (fun r => !(truthy (r.get "subtotal")))) k
      else Rec.get ((List.range cfg.numberOfCategories).foldl
        (fun r i =>
          Rec.set (Rec.set (Rec.set r ("category-" ++ Nat.repr (i + 1)) (vstr "Grand Total"))
            "order" (vnum 999999)) "grandtotal" (vbool true))
        ([("category", vstr "Grand Total"), ("subtotal", vbool true)] : Rec)) k := by
  rw [mkGrandTotal]
  exact get_foldl_setF _ _ _ _

theorem mkGrandTotal_get_value (cfg : Cfg) (mIAR : List String) (records : List Rec)
    (k : String) (hk : k ∈ mIAR) :
    (mkGrandTotal cfg mIAR records).get k =
      sumField (records.filter (fun r => !(truthy (r.get "subtotal")))) k := by
  rw [mkGrandTotal_get, if_pos hk]

theorem mkGrandTotal_get_subtotal (cfg : Cfg) (mIAR : List String) (records : List Rec)
    (hm : "subtotal" ∉ mIAR) :
    (mkGrandTotal cfg mIAR records).get "subtotal" = vbool true := by
  rw [mkGrandTotal_get, if_neg hm]
  rw [get_foldl_pres]
  · rw [get_cons_ne _ _ _ _ (by decide), get_cons_eq]
  · intro r i _
    rw [Rec.get_set_ne _ _ _ _ (by decide), Rec.get_set_ne _ _ _ _ (by decide),
      Rec.get_set_ne _ _ _ _ (catkey_ne_subtotal _)]

theorem mkGrandTotal_get_grandtotal (cfg : Cfg) (mIAR : List String) (records : List Rec)
    (hm : "grandtotal" ∉ mIAR) (hN : 1 ≤ cfg.numberOfCategories) :
    (mkGrandTotal cfg mIAR records).get "grandtotal" = vbool true := by
  rw [mkGrandTotal_get, if_neg hm]
  have hne : List.range cfg.numberOfCategories ≠ [] := by
    intro h
    rw [List.range_eq_nil] at h
    omega
  generalize List.range cfg.numberOfCategories = l at hne ⊢
  have key : ∀ (l : List Nat) (acc : Rec), l ≠ [] →
      (l.foldl (fun r i =>
        ((r.set ("category-" ++ Nat.repr (i + 1)) (vstr "Grand Total")).set
          "order" (vnum 999999)).set "grandtotal" (vbool true)) acc).get "grandtotal" =
      vbool true := by
    intro l
    induction l with
    | nil => intro acc h; exact absurd rfl h
    | cons x xs ih =>
      intro acc _
      rw [List.foldl_cons]
      cases hxs : xs with
      | nil => exact Rec.get_set_self _ _ _
      | cons y ys =>
        rw [← hxs]
        exact ih _ (by rw [hxs]; exact List.cons_ne_nil y ys)
  exact key l _ hne

theorem mkGrandTotal_get_grandtotal_zero (cfg : Cfg) (mIAR : List String) (records : List Rec)
    (hm : "grandtotal" ∉ mIAR) (hN : cfg.numberOfCategories = 0) :
    (mkGrandTotal cfg mIAR records).get "grandtotal" = vundef := by
  rw [mkGrandTotal_get, if_neg hm, hN]
  rw [List.range_zero, List.foldl_nil, get_cons_ne _ _ _ _ (by decide),
    get_cons_ne _ _ _ _ (by decide)]
  rfl

/-- The two cumulative corrections only touch `Cumul` columns: every
space-free field of every record is left unchanged. -/
theorem get_cumulOverwrite_no_space (ml : List String) (ms : String) (r : Rec) (k : String)
    (h : ' ' ∉ k.data) : (cumulOverwrite ml ms r).get k = r.get k := by
  rw [cumulOverwrite]
  rw [get_foldl_pres]
  intro r' m _
  refine Rec.get_set_ne _ _ _ _ (fun e => ?_)
  rw [← e] at h
  exact h (cumul_key_has_space _)

/-! ## The subtotal pass scans leaves only -/

theorem jsEqb_false_of_ne_vstr (a : Val) (s : String) (h : a ≠ vstr s) :
    jsEqb a (vstr s) = false := by
  rw [jsEqb]
  by_cases ha : a = vnan
  · rw [if_pos (Or.inl ha)]
  · rw [if_neg (by simp [ha])]
    simpa using h

theorem jsEqb_true_eq {a b : Val} (h : jsEqb a b = true) : a = b := by
  rw [jsEqb] at h
  by_cases hc : a = vnan ∨ b = vnan
  · rw [if_pos hc] at h
    exact Bool.noConfusion h
  · rw [if_neg hc] at h
    exact beq_iff_eq.mp h

/-- Records failing the selection predicate do not change a subtotal. -/
theorem mkSubtotal_append (cfg : Cfg) (mIAR : List String) (leaves extra : List Rec)
    (label : Val) (hex : ∀ e ∈ extra, subtotalSel label e = false) :
    mkSubtotal cfg mIAR (leaves ++ extra) label = mkSubtotal cfg mIAR leaves label := by
  have hfe : List.filter (subtotalSel label) extra = [] :=
    List.filter_eq_nil_iff.mpr (fun e he hp => by rw [hex e he] at hp; exact Bool.noConfusion hp)
  rw [mkSubtotal, mkSubtotal, List.filter_append, hfe, List.append_nil]

/-- A freshly built subtotal fails the selection predicate of every
other (string) label. -/
theorem mkSubtotal_not_sel (cfg : Cfg) (mIAR : List String) (records : List Rec)
    (label label' : Val) (hsub : "subtotal" ∉ mIAR) (hne : label ≠ label')
    (hs : ∃ s, label' = vstr s) :
    subtotalSel label' (mkSubtotal cfg mIAR records label) = false := by
  obtain ⟨s, rfl⟩ := hs
  rw [subtotalSel]
  by_cases hcn : (vstr s) == vstr "Cashflow Net"
  · rw [if_pos hcn, mkSubtotal_get_subtotal cfg mIAR records label hsub]
    simp [truthy]
  · rw [if_neg hcn]
    rcases mkSubtotal_cat1_cases cfg mIAR records label with h | ⟨n, h⟩ | h | h
    · rw [h]
      exact jsEqb_false_of_ne_vstr _ _ hne
    · rw [h]
      exact jsEqb_false_of_ne_vstr _ _ (by intro he; exact Val.noConfusion he)
    · rw [h]
      exact jsEqb_false_of_ne_vstr _ _ (by intro he; exact Val.noConfusion he)
    · rw [h]
      exact jsEqb_false_of_ne_vstr _ _ (by intro he; exact Val.noConfusion he)

/-- The subtotal fold produces exactly one subtotal per non-boundary
label, each computed over the leaf records alone: the subtotals already
appended never satisfy a later label's selection predicate. -/
theorem addSubtotals_eq (cfg : Cfg) (mIAR : List String) (leaves : List Rec)
    (labels : List Val) (hN : 1 < cfg.numberOfCategories) (hsub : "subtotal" ∉ mIAR)
    (hnodup : labels.Nodup) (hvstr : ∀ l ∈ labels, ∃ s, l = vstr s) :
    addSubtotals cfg labels mIAR leaves =
      leaves ++ (labels.filter (fun l => !(isBoundary l))).map (mkSubtotal cfg mIAR leaves) := by
  rw [addSubtotals, if_pos hN]
  have key : ∀ (ls : List Val) (extra : List Rec), ls.Nodup →
      (∀ l ∈ ls, ∃ s, l = vstr s) →
      (∀ e ∈ extra, ∀ L ∈ ls, subtotalSel L e = false) →
      (ls.foldl (fun recs label => if isBoundary label then recs
          else recs ++ [mkSubtotal cfg mIAR recs label]) (leaves ++ extra)) =
        leaves ++ extra ++ (ls.filter (fun l => !(isBoundary l))).map (mkSubtotal cfg mIAR leaves) := by
    intro ls
    induction ls with
    | nil => intro extra _ _ _; simp
    | cons x xs ih =>
      intro extra hnd hvs hfail
      rw [List.foldl_cons]
      by_cases hb : isBoundary x
      · rw [if_pos hb]
        have := ih extra (List.nodup_cons.mp hnd).2
          (fun l hl => hvs l (List.mem_cons_of_mem x hl))
          (fun e he L hL => hfail e he L (List.mem_cons_of_mem x hL))
        rw [this, List.filter_cons_of_neg (by simpa using hb)]
      · rw [if_neg hb]
        have hsel : ∀ e ∈ extra, subtotalSel x e = false :=
          fun e he => hfail e he x (List.mem_cons_self x xs)
        have hred : mkSubtotal cfg mIAR (leaves ++ extra) x = mkSubtotal cfg mIAR leaves x :=
          mkSubtotal_append cfg mIAR leaves extra x hsel
        have happ : leaves ++ extra ++ [mkSubtotal cfg mIAR (leaves ++ extra) x] =
            leaves ++ (extra ++ [mkSubtotal cfg mIAR leaves x]) := by
          rw [hred, List.append_assoc]
        rw [happ]
        have hnd2 := List.nodup_cons.mp hnd
        have := ih (extra ++ [mkSubtotal cfg mIAR leaves x]) hnd2.2
          (fun l hl => hvs l (List.mem_cons_of_mem x hl)) ?_
        · rw [this, List.filter_cons_of_pos (by simpa using hb), List.map_cons]
          simp [List.append_assoc]
        · intro e he L hL
          rcases List.mem_append.mp he with he | he
          · exact hfail e he L (List.mem_cons_of_mem x hL)
          · rcases List.mem_singleton.mp he with rfl
            refine mkSubtotal_not_sel cfg mIAR leaves x L hsub ?_
              (hvs L (List.mem_cons_of_mem x hL))
            intro hxL
            exact hnd2.1 (hxL ▸ hL)
  have := key labels [] hnodup hvstr (fun e he => absurd he (List.not_mem_nil e))
  simpa using this

theorem sortedLeaves_cat1_vstr (cfg : Cfg) (data : List Row) (hN : 1 ≤ cfg.numberOfCategories) :
    ∀ r ∈ sortedLeaves cfg data, ∃ s, r.get "category-1" = vstr s := by
  intro r hr
  rw [sortedLeaves, mem_sortCmp, stageB] at hr
  rcases List.mem_map.mp hr with ⟨x, hx, rfl⟩
  obtain ⟨s, hs⟩ := stageA_cat1_vstr cfg data hN x hx
  refine ⟨s, ?_⟩
  rw [get_cumulize_no_space _ _ _ _ (by decide), hs]

theorem ordersBase_head (cfg : Cfg) (data : List Row) (hN : 1 ≤ cfg.numberOfCategories) :
    (ordersBase cfg data).headD [] = firstSeen (sortedLeaves cfg data) "category-1" := by
  rw [ordersBase, ordersOf]
  obtain ⟨m, hm⟩ : ∃ m, cfg.numberOfCategories = m + 1 :=
    ⟨cfg.numberOfCategories - 1, by omega⟩
  rw [hm, List.range_succ_eq_map, List.map_cons]
  have h1 : ("category-" ++ Nat.repr (0 + 1)) = "category-1" := by decide
  rw [List.headD_cons, h1]

/-- The subtotal pass decomposed: the final list is the sorted leaves
followed by one subtotal per non-boundary top-level label, each computed
over the sorted leaves alone. -/
theorem withSubtotals_eq (cfg : Cfg) (data : List Row) (hN : 1 < cfg.numberOfCategories) :
    withSubtotals cfg data =
      sortedLeaves cfg data ++
        ((firstSeen (sortedLeaves cfg data) "category-1").filter
          (fun l => !(isBoundary l))).map
          (mkSubtotal cfg (mIAROf cfg data) (sortedLeaves cfg data)) := by
  rw [withSubtotals, ordersBase_head cfg data (by omega)]
  exact addSubtotals_eq cfg (mIAROf cfg data) (sortedLeaves cfg data)
    (firstSeen (sortedLeaves cfg data) "category-1") hN
    (subtotal_not_mem_mIAR cfg data)
    (firstSeen_nodup _ _)
    (fun l hl => by
      obtain ⟨r, hr, he⟩ := mem_firstSeen _ _ _ hl
      obtain ⟨s, hs⟩ := sortedLeaves_cat1_vstr cfg data (by omega) r hr
      exact ⟨s, by rw [← he, hs]⟩)

/-! ## The correction passes leave other records alone -/

theorem modifyAt_eq (l : List Rec) (i : Nat) (f : Rec → Rec) (h : i < l.length) :
    modifyAt l i f = l.take i ++ f (l.get ⟨i, h⟩) :: l.drop (i + 1) := by
  induction l generalizing i with
  | nil => simp at h
  | cons x xs ih =>
    cases i with
    | zero => rfl
    | succ i =>
      have hlt : i < xs.length := by simpa using h
      simp [modifyAt, ih i hlt, List.get]

theorem list_self_eq (l : List Rec) (i : Nat) (h : i < l.length) :
    l = l.take i ++ l.get ⟨i, h⟩ :: l.drop (i + 1) := by
  conv_lhs => rw [← List.take_append_drop i l]
  rw [List.drop_eq_getElem_cons h]
  rfl

/-- Membership transport out of a correction pass: any record whose
composite key differs from the correction's target key comes unchanged
from the input list, and vice versa. -/
theorem mem_modifyAt_iff_of_ne (l : List Rec) (i : Nat) (f : Rec → Rec)
    (hlt : i < l.length) (r : Rec)
    (hne : r ≠ l.get ⟨i, hlt⟩) (hnef : r ≠ f (l.get ⟨i, hlt⟩)) :
    r ∈ modifyAt l i f ↔ r ∈ l := by
  rw [modifyAt_eq l i f hlt]
  conv_rhs => rw [list_self_eq l i hlt]
  simp only [List.mem_append, List.mem_cons]
  constructor
  · rintro (h | h | h)
    · exact Or.inl h
    · exact absurd h hnef
    · exact Or.inr (Or.inr h)
  · rintro (h | h | h)
    · exact Or.inl h
    · exact absurd h hne
    · exact Or.inr (Or.inr h)

/-- The category of a record never changes under the cumulative
overwrite. -/
theorem cumulOverwrite_category (ml : List String) (ms : String) (r : Rec) :
    (cumulOverwrite ml ms r).get "category" = r.get "category" :=
  get_cumulOverwrite_no_space ml ms r _ (by decide)

theorem initialCorrection_mem_of_ne (ml : List String) (months : List Val) (l : List Rec)
    (r : Rec) (hne : r.get "category" ≠ vstr "Initial || Solde Initial") :
    r ∈ initialCorrection ml months l ↔ r ∈ l := by
  rw [initialCorrection]
  cases hFind : l.findIdx? (fun x => jsEqb (x.get "category") (vstr "Initial || Solde Initial")) with
  | none => rfl
  | some i =>
    obtain ⟨hlt, hp, _⟩ := List.findIdx?_eq_some_iff_getElem.mp hFind
    have htgt : (l.get ⟨i, hlt⟩).get "category" = vstr "Initial || Solde Initial" := by
      have : l.get ⟨i, hlt⟩ = l[i] := List.get_eq_getElem l ⟨i, hlt⟩
      rw [this]
      exact jsEqb_true_eq hp
    refine mem_modifyAt_iff_of_ne l i _ hlt r ?_ ?_
    · intro he
      rw [he, htgt] at hne
      exact hne rfl
    · intro he
      rw [he, cumulOverwrite_category, htgt] at hne
      exact hne rfl

theorem grandTotalCorrection_mem_of_ne (ml : List String) (months : List Val) (l : List Rec)
    (r : Rec) (hne : r.get "category" ≠ vstr "Grand Total") :
    r ∈ grandTotalCorrection ml months l ↔ r ∈ l := by
  rw [grandTotalCorrection]
  cases hFind : l.findIdx? (fun x => jsEqb (x.get "category") (vstr "Grand Total")) with
  | none => rfl
  | some i =>
    obtain ⟨hlt, hp, _⟩ := List.findIdx?_eq_some_iff_getElem.mp hFind
    have htgt : (l.get ⟨i, hlt⟩).get "category" = vstr "Grand Total" := by
      have : l.get ⟨i, hlt⟩ = l[i] := List.get_eq_getElem l ⟨i, hlt⟩
      rw [this]
      exact jsEqb_true_eq hp
    refine mem_modifyAt_iff_of_ne l i _ hlt r ?_ ?_
    · intro he
      rw [he, htgt] at hne
      exact hne rfl
    · intro he
      rw [he, cumulOverwrite_category, htgt] at hne
      exact hne rfl

/-- Weaker membership transport (no key hypothesis): a record of the
corrected list is either an input record or the overwrite of one. -/
theorem mem_initialCorrection (ml : List String) (months : List Val) (l : List Rec) (r : Rec)
    (hr : r ∈ initialCorrection ml months l) :
    r ∈ l ∨ ∃ x ∈ l, r = cumulOverwrite ml (months.headD vundef).jsToString x := by
  rw [initialCorrection] at hr
  cases hFind : l.findIdx? (fun x => jsEqb (x.get "category") (vstr "Initial || Solde Initial")) with
  | none =>
    rw [hFind] at hr
    exact Or.inl hr
  | some i =>
    rw [hFind] at hr
    exact mem_modifyAt _ _ _ _ hr

theorem mem_grandTotalCorrection (ml : List String) (months : List Val) (l : List Rec) (r : Rec)
    (hr : r ∈ grandTotalCorrection ml months l) :
    r ∈ l ∨ ∃ x ∈ l, r = cumulOverwrite ml (months.getLastD vundef).jsToString x := by
  rw [grandTotalCorrection] at hr
  cases hFind : l.findIdx? (fun x => jsEqb (x.get "category") (vstr "Grand Total")) with
  | none =>
    rw [hFind] at hr
    exact Or.inl hr
  | some i =>
    rw [hFind] at hr
    exact mem_modifyAt _ _ _ _ hr

/-! ## Classification of output records -/

theorem countP_modifyAt (l : List Rec) (i : Nat) (f : Rec → Rec) (p : Rec → Bool)
    (hf : ∀ x, p (f x) = p x) : (modifyAt l i f).countP p = l.countP p := by
  induction l generalizing i with
  | nil => rfl
  | cons x xs ih =>
    cases i with
    | zero =>
      rw [modifyAt]
      rw [List.countP_cons, List.countP_cons, hf]
    | succ i =>
      rw [modifyAt]
      rw [List.countP_cons, List.countP_cons, ih]

theorem countP_initialCorrection (ml : List String) (months : List Val) (l : List Rec)
    (p : Rec → Bool) (hp : ∀ ms x, p (cumulOverwrite ml ms x) = p x) :
    (initialCorrection ml months l).countP p = l.countP p := by
  rw [initialCorrection]
  cases l.findIdx? (fun x => jsEqb (x.get "category") (vstr "Initial || Solde Initial")) with
  | none => rfl
  | some i => exact countP_modifyAt l i _ p (fun x => hp _ x)

theorem countP_grandTotalCorrection (ml : List String) (months : List Val) (l : List Rec)
    (p : Rec → Bool) (hp : ∀ ms x, p (cumulOverwrite ml ms x) = p x) :
    (grandTotalCorrection ml months l).countP p = l.countP p := by
  rw [grandTotalCorrection]
  cases l.findIdx? (fun x => jsEqb (x.get "category") (vstr "Grand Total")) with
  | none => rfl
  | some i => exact countP_modifyAt l i _ p (fun x => hp _ x)

/-- No record before the grand-total step carries a `grandtotal` flag. -/
theorem withSubtotals_grandtotal (cfg : Cfg) (data : List Row) :
    ∀ r ∈ withSubtotals cfg data, r.get "grandtotal" = vundef := by
  intro r hr
  by_cases hN : 1 < cfg.numberOfCategories
  · rw [withSubtotals_eq cfg data hN] at hr
    rcases List.mem_append.mp hr with hr | hr
    · exact (sortedLeaves_leafShape cfg data r hr).get_grandtotal
    · rcases List.mem_map.mp hr with ⟨label, _, rfl⟩
      exact mkSubtotal_get_grandtotal _ _ _ _ (grandtotal_not_mem_mIAR cfg data)
  · rw [withSubtotals, addSubtotals, if_neg hN] at hr
    exact (sortedLeaves_leafShape cfg data r hr).get_grandtotal

/-- Records before the grand-total step are leaves (no flags) or
subtotals (`subtotal` flag only). -/
theorem withSubtotals_classify (cfg : Cfg) (data : List Row) :
    ∀ r ∈ withSubtotals cfg data,
      (r.get "subtotal" = vundef) ∨ (r.get "subtotal" = vbool true) := by
  intro r hr
  by_cases hN : 1 < cfg.numberOfCategories
  · rw [withSubtotals_eq cfg data hN] at hr
    rcases List.mem_append.mp hr with hr | hr
    · exact Or.inl (sortedLeaves_leafShape cfg data r hr).get_subtotal
    · rcases List.mem_map.mp hr with ⟨label, _, rfl⟩
      exact Or.inr (mkSubtotal_get_subtotal _ _ _ _ (subtotal_not_mem_mIAR cfg data))
  · rw [withSubtotals, addSubtotals, if_neg hN] at hr
    exact Or.inl (sortedLeaves_leafShape cfg data r hr).get_subtotal

theorem afterInitial_grandtotal (cfg : Cfg) (data : List Row) :
    ∀ r ∈ afterInitial cfg data, r.get "grandtotal" = vundef := by
  intro r hr
  rcases mem_initialCorrection _ _ _ _ hr with hr | ⟨x, hx, rfl⟩
  · exact withSubtotals_grandtotal cfg data r hr
  · rw [get_cumulOverwrite_no_space _ _ _ _ (by decide)]
    exact withSubtotals_grandtotal cfg data x hx

theorem afterInitial_classify (cfg : Cfg) (data : List Row) :
    ∀ r ∈ afterInitial cfg data,
      (r.get "subtotal" = vundef) ∨ (r.get "subtotal" = vbool true) := by
  intro r hr
  rcases mem_initialCorrection _ _ _ _ hr with hr | ⟨x, hx, rfl⟩
  · exact withSubtotals_classify cfg data r hr
  · rw [get_cumulOverwrite_no_space _ _ _ _ (by decide)]
    exact withSubtotals_classify cfg data x hx

theorem withGrandTotal_classify (cfg : Cfg) (data : List Row) :
    ∀ r ∈ withGrandTotal cfg data,
      (r.get "subtotal" = vundef ∧ r.get "grandtotal" = vundef) ∨
      (r.get "subtotal" = vbool true ∧ r.get "grandtotal" = vundef) ∨
      (r.get "subtotal" = vbool true ∧ r.get "grandtotal" = vbool true) := by
  intro r hr
  rw [withGrandTotal] at hr
  rcases List.mem_append.mp hr with hr | hr
  · rcases afterInitial_classify cfg data r hr with h | h
    · exact Or.inl ⟨h, afterInitial_grandtotal cfg data r hr⟩
    · exact Or.inr (Or.inl ⟨h, afterInitial_grandtotal cfg data r hr⟩)
  · rcases List.mem_singleton.mp hr with rfl
    by_cases hN : 1 ≤ cfg.numberOfCategories
    · exact Or.inr (Or.inr
        ⟨mkGrandTotal_get_subtotal _ _ _ (subtotal_not_mem_mIAR cfg data),
         mkGrandTotal_get_grandtotal _ _ _ (grandtotal_not_mem_mIAR cfg data) hN⟩)
    · exact Or.inr (Or.inl
        ⟨mkGrandTotal_get_subtotal _ _ _ (subtotal_not_mem_mIAR cfg data),
         mkGrandTotal_get_grandtotal_zero _ _ _ (grandtotal_not_mem_mIAR cfg data) (by omega)⟩)

/-- Every record of the final output is a leaf (neither flag), a plain
subtotal (`subtotal` only), or the grand total (both flags). -/
theorem finalRecords_classify (cfg : Cfg) (data : List Row) :
    ∀ r ∈ finalRecords cfg data,
      (r.get "subtotal" = vundef ∧ r.get "grandtotal" = vundef) ∨
      (r.get "subtotal" = vbool true ∧ r.get "grandtotal" = vundef) ∨
      (r.get "subtotal" = vbool true ∧ r.get "grandtotal" = vbool true) := by
  intro r hr
  rw [finalRecords, mem_sortCmp] at hr
  rcases mem_grandTotalCorrection _ _ _ _ hr with hr | ⟨x, hx, rfl⟩
  · exact withGrandTotal_classify cfg data r hr
  · rw [get_cumulOverwrite_no_space _ _ _ _ (by decide),
      get_cumulOverwrite_no_space _ _ _ _ (by decide)]
    exact withGrandTotal_classify cfg data x hx

/-- Exactly one record of the final output is flagged `grandtotal`
(when at least one category level exists). -/
theorem finalRecords_one_grandtotal (cfg : Cfg) (data : List Row)
    (hN : 1 ≤ cfg.numberOfCategories) :
    (finalRecords cfg data).countP (fun r => truthy (r.get "grandtotal")) = 1 := by
  rw [finalRecords]
  rw [(sortCmp_perm _ _).countP_eq]
  rw [afterGTCorrection]
  rw [countP_grandTotalCorrection _ _ _ _
    (fun ms x => by rw [get_cumulOverwrite_no_space _ _ _ _ (by decide)])]
  rw [withGrandTotal, List.countP_append]
  have h1 : (afterInitial cfg data).countP (fun r => truthy (r.get "grandtotal")) = 0 := by
    rw [List.countP_eq_zero]
    intro r hr
    rw [afterInitial_grandtotal cfg data r hr]
    simp [truthy]
  have h2 : ([mkGrandTotal cfg (mIAROf cfg data) (afterInitial cfg data)] : List Rec).countP
      (fun r => truthy (r.get "grandtotal")) = 1 := by
    have hg := mkGrandTotal_get_grandtotal cfg (mIAROf cfg data) (afterInitial cfg data)
      (grandtotal_not_mem_mIAR cfg data) hN
    rw [List.countP_cons, List.countP_nil, hg]
    simp [truthy]
  rw [h1, h2]

/-! ## Transporting the leaf records to the final output -/

/-- The presentation classification of a leaf record: neither flag is
truthy. -/
def leafFlag (r : Rec) : Bool :=
  !(truthy (r.get "subtotal")) && !(truthy (r.get "grandtotal"))

theorem leafFlag_of_leafShape {r : Rec} (h : LeafShape r) : leafFlag r = true := by
  rw [leafFlag, h.get_subtotal, h.get_grandtotal]
  rfl

theorem filter_map_modifyAt {β : Type} (l : List Rec) (i : Nat) (f : Rec → Rec)
    (p : Rec → Bool) (g : Rec → β) (hp : ∀ x, p (f x) = p x) (hg : ∀ x, g (f x) = g x) :
    ((modifyAt l i f).filter p).map g = (l.filter p).map g := by
  induction l generalizing i with
  | nil => rfl
  | cons x xs ih =>
    cases i with
    | zero =>
      rw [modifyAt]
      cases hpx : p x with
      | true =>
        rw [List.filter_cons_of_pos (by rw [hp, hpx]), List.filter_cons_of_pos hpx,
          List.map_cons, List.map_cons, hg]
      | false =>
        rw [List.filter_cons_of_neg (by rw [hp, hpx]; exact Bool.noConfusion),
          List.filter_cons_of_neg (by rw [hpx]; exact Bool.noConfusion)]
    | succ i =>
      rw [modifyAt]
      cases hpx : p x with
      | true =>
        rw [List.filter_cons_of_pos hpx, List.filter_cons_of_pos hpx,
          List.map_cons, List.map_cons, ih]
      | false =>
        rw [List.filter_cons_of_neg (by rw [hpx]; exact Bool.noConfusion),
          List.filter_cons_of_neg (by rw [hpx]; exact Bool.noConfusion), ih]

theorem cumulOverwrite_leafFlag (ml : List String) (ms : String) (r : Rec) :
    leafFlag (cumulOverwrite ml ms r) = leafFlag r := by
  rw [leafFlag, leafFlag, get_cumulOverwrite_no_space _ _ _ _ (by decide),
    get_cumulOverwrite_no_space _ _ _ _ (by decide)]

/-- The composite keys of the final output's leaf-classified records are
exactly the composite keys of the records built by the row loop. -/
theorem final_leaves_map_category (cfg : Cfg) (data : List Row) :
    (((finalRecords cfg data).filter leafFlag).map (fun r => r.get "category")).Perm
      ((stageA cfg data).records.map (fun r => r.get "category")) := by
  have hcorr : ∀ (months : List Val) (l : List Rec),
      ((initialCorrection cfg.measureLabels months l).filter leafFlag).map
          (fun r => r.get "category") =
        (l.filter leafFlag).map (fun r => r.get "category") := by
    intro months l
    rw [initialCorrection]
    cases l.findIdx? (fun x => jsEqb (x.get "category") (vstr "Initial || Solde Initial")) with
    | none => rfl
    | some i =>
      exact filter_map_modifyAt l i _ _ _ (cumulOverwrite_leafFlag _ _)
        (fun x => cumulOverwrite_category _ _ x)
  have hcorr2 : ∀ (months : List Val) (l : List Rec),
      ((grandTotalCorrection cfg.measureLabels months l).filter leafFlag).map
          (fun r => r.get "category") =
        (l.filter leafFlag).map (fun r => r.get "category") := by
    intro months l
    rw [grandTotalCorrection]
    cases l.findIdx? (fun x => jsEqb (x.get "category") (vstr "Grand Total")) with
    | none => rfl
    | some i =>
      exact filter_map_modifyAt l i _ _ _ (cumulOverwrite_leafFlag _ _)
        (fun x => cumulOverwrite_category _ _ x)
  have h1 : (((finalRecords cfg data).filter leafFlag).map (fun r => r.get "category")).Perm
      (((afterGTCorrection cfg data).filter leafFlag).map (fun r => r.get "category")) := by
    exact ((sortCmp_perm _ _).filter leafFlag).map _
  have h2 : ((afterGTCorrection cfg data).filter leafFlag).map (fun r => r.get "category") =
      ((withGrandTotal cfg data).filter leafFlag).map (fun r => r.get "category") := by
    rw [afterGTCorrection]
    exact hcorr2 _ _
  have hGTflag : leafFlag (mkGrandTotal cfg (mIAROf cfg data) (afterInitial cfg data)) = false := by
    rw [leafFlag, mkGrandTotal_get_subtotal _ _ _ (subtotal_not_mem_mIAR cfg data)]
    rfl
  have h3 : ((withGrandTotal cfg data).filter leafFlag).map (fun r => r.get "category") =
      ((afterInitial cfg data).filter leafFlag).map (fun r => r.get "category") := by
    rw [withGrandTotal, List.filter_append, List.filter_cons_of_neg (by
      rw [hGTflag]; exact Bool.noConfusion), List.filter_nil, List.append_nil]
  have h4 : ((afterInitial cfg data).filter leafFlag).map (fun r => r.get "category") =
      ((withSubtotals cfg data).filter leafFlag).map (fun r => r.get "category") := by
    rw [afterInitial]
    exact hcorr _ _
  have h5 : ((withSubtotals cfg data).filter leafFlag).map (fun r => r.get "category") =
      ((sortedLeaves cfg data).map (fun r => r.get "category")) := by
    have hleaves : (sortedLeaves cfg data).filter leafFlag = sortedLeaves cfg data := by
      rw [List.filter_eq_self]
      intro r hr
      exact leafFlag_of_leafShape (sortedLeaves_leafShape cfg data r hr)
    by_cases hN : 1 < cfg.numberOfCategories
    · rw [withSubtotals_eq cfg data hN, List.filter_append]
      have hsubs : (((firstSeen (sortedLeaves cfg data) "category-1").filter
          (fun l => !(isBoundary l))).map
            (mkSubtotal cfg (mIAROf cfg data) (sortedLeaves cfg data))).filter leafFlag = [] := by
        rw [List.filter_eq_nil_iff]
        intro r hr
        rcases List.mem_map.mp hr with ⟨label, _, rfl⟩
        rw [leafFlag, mkSubtotal_get_subtotal _ _ _ _ (subtotal_not_mem_mIAR cfg data)]
        simp [truthy]
      rw [hsubs, List.append_nil, hleaves]
    · rw [withSubtotals, addSubtotals, if_neg hN, hleaves]
  have h6 : ((sortedLeaves cfg data).map (fun r => r.get "category")).Perm
      ((stageB cfg data).map (fun r => r.get "category")) :=
    (sortCmp_perm _ _).map _
  have h7 : (stageB cfg data).map (fun r => r.get "category") =
      (stageA cfg data).records.map (fun r => r.get "category") := by
    rw [stageB, List.map_map]
    refine List.map_congr_left ?_
    intro r hr
    exact get_cumulize_no_space _ _ _ _ (by decide)
  rw [h2, h3, h4, h5] at h1
  exact h1.trans (h6.trans (h7 ▸ List.Perm.refl _))

/-! ## Inversion of the render entry point -/

theorem renderPipeline_table (cfg : Cfg) (data : List Row) (recs : List Rec)
    (h : renderPipeline cfg data = RenderResult.table recs) :
    recs = finalRecords cfg data ∧ data.length ≠ 0 ∧
      ¬((data.headD []).length < 3) ∧ cfg.numberOfCategories ≠ 0 := by
  rw [renderPipeline] at h
  by_cases h0 : data.length = 0
  · rw [if_pos h0] at h
    exact absurd h (by intro he; exact RenderResult.noConfusion he)
  · rw [if_neg h0] at h
    by_cases h1 : (data.headD []).length < 3
    · rw [if_pos h1] at h
      exact absurd h (by intro he; exact RenderResult.noConfusion he)
    · rw [if_neg h1] at h
      by_cases h2 : cfg.numberOfCategories = 0
      · rw [if_pos h2] at h
        exact absurd h (by intro he; exact RenderResult.noConfusion he)
      · rw [if_neg h2] at h
        injection h with he
        exact ⟨he.symm, h0, h1, h2⟩

/-! ## The claims -/

/-- C4: Leaf key uniqueness.  In every rendered table the
leaf-classified records carry pairwise-distinct composite `category`
keys; every input row's composite key is carried by some leaf record,
and every leaf record's key is some input row's key.  Together with the
uniqueness this says two input rows feed the same summary record exactly
when their composite keys (display labels joined with `' || '`) are
equal. -/
theorem C4_leaf_key_uniqueness (cfg : Cfg) (data : List Row) (recs : List Rec)
    (h : renderPipeline cfg data = RenderResult.table recs) :
    ((recs.filter leafFlag).map (fun r => r.get "category")).Pairwise (fun a b => a ≠ b) ∧
    (∀ row ∈ data, ∃ r ∈ recs.filter leafFlag, r.get "category" = rowCategory cfg row) ∧
    (∀ r ∈ recs.filter leafFlag, ∃ row ∈ data, r.get "category" = rowCategory cfg row) := by
  obtain ⟨rfl, -, -, -⟩ := renderPipeline_table cfg data recs h
  have hperm := final_leaves_map_category cfg data
  obtain ⟨-, hPairwise, hSound, hComplete⟩ := stageA_inv cfg data
  refine ⟨?_, ?_, ?_⟩
  · exact (hperm.pairwise_iff (fun hab => hab.symm)).mpr hPairwise
  · intro row hrow
    obtain ⟨x, hx, he⟩ := hComplete row hrow
    have : x.get "category" ∈ ((stageA cfg data).records.map (fun r => r.get "category")) :=
      List.mem_map_of_mem _ hx
    rw [← hperm.mem_iff] at this
    obtain ⟨r, hr, he2⟩ := List.mem_map.mp this
    exact ⟨r, hr, he2.trans he⟩
  · intro r hr
    have : r.get "category" ∈
        (((finalRecords cfg data).filter leafFlag).map (fun x => x.get "category")) :=
      List.mem_map_of_mem _ hr
    rw [hperm.mem_iff] at this
    obtain ⟨x, hx, he⟩ := List.mem_map.mp this
    obtain ⟨row, hrow, he2⟩ := hSound x hx
    exact ⟨row, hrow, he.symm.trans he2⟩

/-- Concrete input for the C4 witness: two category levels, one
measure, three rows of which two share a composite key. -/
def cfgC4 : Cfg := ⟨false, 2, ["M"]⟩

/-- Rows for the C4 witness. -/
def dataC4 : List Row :=
  [[vstr "2024-01", vstr "A", vstr "x", vnum 10],
   [vstr "2024-02", vstr "A", vstr "x", vnum 20],
   [vstr "2024-01", vstr "B", vstr "y", vnum 5]]

/-- Witness for C4 at a concrete input. -/
theorem C4_witness :
    renderPipeline cfgC4 dataC4 = RenderResult.table (finalRecords cfgC4 dataC4) ∧
    (((finalRecords cfgC4 dataC4).filter leafFlag).map
      (fun r => r.get "category")).Pairwise (fun a b => a ≠ b) :=
  ⟨rfl, (C4_leaf_key_uniqueness cfgC4 dataC4 _ rfl).1⟩

/-- Concrete input for the C5 counterexample: one row, two category
levels, one measure. -/
def cfgC5 : Cfg := ⟨false, 2, ["M"]⟩

/-- Rows for the C5 counterexample. -/
def dataC5 : List Row := [[vstr "2024-01", vstr "A", vstr "x", vnum 10]]

/-- C5 counterexample: the last output record is the grand total (it
carries a truthy `grandtotal` flag), yet it is ALSO marked `subtotal` —
the source creates it as `{category: 'Grand Total', subtotal: true}` —
contradicting the claim that the grand-total record is not marked as a
subtotal. -/
theorem C5_counterexample :
    ((finalRecords cfgC5 dataC5).getLastD []).get "grandtotal" = vbool true ∧
    ((finalRecords cfgC5 dataC5).getLastD []).get "subtotal" = vbool true := by
  decide

/-- C5 (amended): every output record is a leaf (neither flag), a plain
subtotal (`subtotal` only), or the grand total — which is marked BOTH
`grandtotal` and `subtotal`; exactly one record carries the `grandtotal`
flag, and no record carries `grandtotal` without `subtotal`. -/
theorem C5_amended (cfg : Cfg) (data : List Row) (recs : List Rec)
    (h : renderPipeline cfg data = RenderResult.table recs) :
    (∀ r ∈ recs,
      (r.get "subtotal" = vundef ∧ r.get "grandtotal" = vundef) ∨
      (r.get "subtotal" = vbool true ∧ r.get "grandtotal" = vundef) ∨
      (r.get "subtotal" = vbool true ∧ r.get "grandtotal" = vbool true)) ∧
    recs.countP (fun r => truthy (r.get "grandtotal")) = 1 := by
  obtain ⟨rfl, -, -, hN⟩ := renderPipeline_table cfg data recs h
  exact ⟨finalRecords_classify cfg data, finalRecords_one_grandtotal cfg data (by omega)⟩

/-- Concrete input for the C5 witness. -/
def cfgC5w : Cfg := ⟨false, 2, ["M"]⟩

/-- Rows for the C5 witness. -/
def dataC5w : List Row :=
  [[vstr "2024-01", vstr "R", vstr "a", vnum 4],
   [vstr "2024-01", vstr "S", vstr "b", vnum 6]]

/-- Witness for C5 (amended) at a concrete input. -/
theorem C5_witness :
    renderPipeline cfgC5w dataC5w = RenderResult.table (finalRecords cfgC5w dataC5w) ∧
    (finalRecords cfgC5w dataC5w).countP (fun r => truthy (r.get "grandtotal")) = 1 :=
  ⟨rfl, (C5_amended cfgC5w dataC5w _ rfl).2⟩

/-- Concrete input for the C8 counterexample: the first row has 3
cells, the second only 2. -/
def cfgC8 : Cfg := ⟨false, 1, ["M"]⟩

/-- Rows for the C8 counterexample. -/
def dataC8 : List Row :=
  [[vstr "2024-01", vstr "A", vnum 3],
   [vstr "2024-02", vstr "B"]]

/-- C8 counterexample: the input contains a row with fewer than 3 cells,
yet the pipeline does NOT signal the layout error — the check inspects
`data[0]` only — refuting the claim for "every non-empty input
containing a row with fewer than 3 cells". -/
theorem C8_counterexample :
    (dataC8.getD 1 []).length < 3 ∧
    renderPipeline cfgC8 dataC8 ≠ RenderResult.layoutError := by
  decide

/-- C8 (amended): the pipeline signals the layout error exactly when
the input is non-empty and its FIRST row has fewer than 3 cells; short
rows beyond the first are not detected and aggregation proceeds. -/
theorem C8_amended (cfg : Cfg) (data : List Row) :
    renderPipeline cfg data = RenderResult.layoutError ↔
      data.length ≠ 0 ∧ (data.headD []).length < 3 := by
  rw [renderPipeline]
  by_cases h0 : data.length = 0
  · rw [if_pos h0]
    constructor
    · intro he
      exact absurd he (by intro he2; exact RenderResult.noConfusion he2)
    · rintro ⟨h, -⟩
      exact absurd h0 h
  · rw [if_neg h0]
    by_cases h1 : (data.headD []).length < 3
    · rw [if_pos h1]
      exact ⟨fun _ => ⟨h0, h1⟩, fun _ => rfl⟩
    · rw [if_neg h1]
      constructor
      · intro he
        by_cases h2 : cfg.numberOfCategories = 0
        · rw [if_pos h2] at he
          exact absurd he (by intro he2; exact RenderResult.noConfusion he2)
        · rw [if_neg h2] at he
          exact absurd he (by intro he2; exact RenderResult.noConfusion he2)
      · rintro ⟨-, h⟩
        exact absurd h h1

/-- First record for the C9 counterexample: explicit numeric order 0. -/
def recC9a : Rec := [("category", vstr "A"), ("order", vnum 0)]

/-- Second record for the C9 counterexample: explicit numeric order 1. -/
def recC9b : Rec := [("category", vstr "B"), ("order", vnum 1)]

/-- C9 counterexample: both records carry an explicit numeric `order`
(0 and 1), so the claim requires them to compare by order ascending
(a negative result); but `a.order && b.order` is a JS truthiness test
and 0 is falsy, so the comparator returns 0. -/
theorem C9_counterexample :
    recC9a.get "order" = vnum 0 ∧ recC9b.get "order" = vnum 1 ∧
    orderCmp recC9a recC9b = 0 ∧ ¬(orderCmp recC9a recC9b < 0) := by
  decide

/-- C9 (amended): two records compare by their numeric `order`
difference only when BOTH orders are truthy (non-zero, non-`NaN`); any
pair in which either record's `order` is falsy — absent, zero or
`NaN` — compares equal (the comparator returns 0). -/
theorem C9_amended (a b : Rec) :
    (truthy (a.get "order") = false ∨ truthy (b.get "order") = false →
      orderCmp a b = 0) ∧
    (∀ x y : Int, a.get "order" = vnum x → b.get "order" = vnum y → x ≠ 0 → y ≠ 0 →
      orderCmp a b = x - y) := by
  constructor
  · intro h
    rw [orderCmp]
    rcases h with h | h
    · rw [h]
      rfl
    · rw [h, Bool.and_false]
      rfl
  · intro x y hx hy hx0 hy0
    rw [orderCmp, hx, hy]
    have htx : truthy (vnum x) = true := by
      rw [truthy]
      simpa using hx0
    have hty : truthy (vnum y) = true := by
      rw [truthy]
      simpa using hy0
    rw [htx, hty]
    rfl

/-- Witness for C9 (amended) at concrete records. -/
theorem C9_witness :
    orderCmp [("order", vnum 2)] [("order", vnum 5)] = 2 - 5 :=
  (C9_amended [("order", vnum 2)] [("order", vnum 5)]).2 2 5 rfl rfl
    (by decide) (by decide)

/-- Level-1 order list for the C6 counterexample. -/
def ordersC6 : List Val := [vstr "P"]

/-- A leaf-like record for the C6 counterexample. -/
def recC6a : Rec := [("category-1", vstr "P"), ("category-2", vstr "x")]

/-- Its sibling subtotal for the C6 counterexample. -/
def recC6b : Rec := [("category-1", vstr "P"), ("category-2", vstr "y"), ("subtotal", vbool true)]

/-- A record whose level-1 label is absent from the order list. -/
def recC6c : Rec := [("category-1", vstr "Q"), ("category-2", vstr "x")]

/-- C6 counterexample: the final comparator never reaches `category-2`
(the `return 1` in the source's loop body is unconditioned): two records
agreeing on `category-1` but differing on `category-2` compare as 1 in
BOTH directions — so there is neither a level-2 index comparison nor a
"non-subtotal first" tie-break — and a record whose label is absent from
the level-1 list compares NEGATIVE against a present one (indexOf -1),
sorting first rather than last. -/
theorem C6_counterexample :
    finalCmp ordersC6 2 recC6a recC6b = 1 ∧
    finalCmp ordersC6 2 recC6b recC6a = 1 ∧
    finalCmp ordersC6 2 recC6c recC6a = -1 ∧ ¬(0 < finalCmp ordersC6 2 recC6c recC6a) := by
  decide

/-- C6 (amended): the final comparator inspects `category-1` only.  On a
strict level-1 mismatch it returns the difference of the two labels'
`indexOf` positions in the level-1 order list (absent labels count -1
and so sort before present ones); on a level-1 tie it returns 1
regardless of `subtotal` flags or deeper category levels — in
particular overwriting `category-2` never changes the result. -/
theorem C6_amended (orders1 : List Val) (n : Nat) (a b : Rec) (hn : 1 ≤ n) :
    (jsEqb (a.get "category-1") (b.get "category-1") = false →
      finalCmp orders1 n a b =
        jsIndexOf orders1 (a.get "category-1") - jsIndexOf orders1 (b.get "category-1")) ∧
    (jsEqb (a.get "category-1") (b.get "category-1") = true →
      finalCmp orders1 n a b = 1) ∧
    (∀ v : Val, finalCmp orders1 n (Rec.set a "category-2" v) b = finalCmp orders1 n a b) := by
  refine ⟨?_, ?_, ?_⟩
  · intro h
    rw [finalCmp, if_pos hn, if_pos (by rw [h]; exact Bool.noConfusion)]
  · intro h
    rw [finalCmp, if_pos hn, if_neg (by rw [h]; intro h2; exact h2 rfl)]
  · intro v
    rw [finalCmp, finalCmp, Rec.get_set_ne _ _ _ _ (by decide)]

/-- Witness for C6 (amended) at concrete records. -/
theorem C6_witness :
    finalCmp [vstr "P", vstr "Q"] 3 [("category-1", vstr "P")] [("category-1", vstr "Q")] =
      jsIndexOf [vstr "P", vstr "Q"] (vstr "P") - jsIndexOf [vstr "P", vstr "Q"] (vstr "Q") :=
  (C6_amended [vstr "P", vstr "Q"] 3 [("category-1", vstr "P")] [("category-1", vstr "Q")]
    (by decide)).1 (by decide)

/-! ## Key inventories of the synthesized records (for C10) -/

theorem mem_keys_foldl_sub {α : Type} (l : List α) (step : Rec → α → Rec) (P : String → Prop)
    (r : Rec) (k : String)
    (hstep : ∀ (r : Rec) (x : α), x ∈ l → k ∈ (step r x).keys → k ∈ r.keys ∨ P k)
    (hk : k ∈ (l.foldl step r).keys) : k ∈ r.keys ∨ P k := by
  induction l generalizing r with
  | nil => exact Or.inl hk
  | cons x xs ih =>
    rw [List.foldl_cons] at hk
    rcases ih _ (fun r y hy => hstep r y (List.mem_cons_of_mem x hy)) hk with h | h
    · exact hstep r x (List.mem_cons_self x xs) h
    · exact Or.inr h

theorem mem_keys_mkSubtotal (cfg : Cfg) (mIAR : List String) (records : List Rec)
    (label : Val) (k : String) (hk : k ∈ (mkSubtotal cfg mIAR records label).keys) :
    k = "category" ∨ k = "subtotal" ∨ (∃ i, k = "category-" ++ Nat.repr i) ∨ k ∈ mIAR := by
  rw [mkSubtotal] at hk
  rcases mem_keys_foldl_sub _ _ (fun k => k ∈ mIAR) _ _ (fun r x hx hkk => by
      rcases (Rec.mem_keys_set r x k _).mp hkk with h | rfl
      · exact Or.inl h
      · exact Or.inr hx) hk with h | h
  · rcases mem_keys_foldl_sub _ _ (fun k => ∃ i, k = "category-" ++ Nat.repr i) _ _
      (fun r x _ hkk => by
        rcases (Rec.mem_keys_set r _ k _).mp hkk with h | rfl
        · exact Or.inl h
        · exact Or.inr ⟨x + 1, rfl⟩) h with h2 | h2
    · have h3 : k = "category" ∨ k = "subtotal" := by
        simpa [Rec.keys] using h2
      rcases h3 with h2 | h2
      · exact Or.inl h2
      · exact Or.inr (Or.inl h2)
    · exact Or.inr (Or.inr (Or.inl h2))
  · exact Or.inr (Or.inr (Or.inr h))

theorem mem_keys_mkGrandTotal (cfg : Cfg) (mIAR : List String) (records : List Rec)
    (k : String) (hk : k ∈ (mkGrandTotal cfg mIAR records).keys) :
    k = "category" ∨ k = "subtotal" ∨ (∃ i, k = "category-" ++ Nat.repr i) ∨
      k = "order" ∨ k = "grandtotal" ∨ k ∈ mIAR := by
  rw [mkGrandTotal] at hk
  rcases mem_keys_foldl_sub _ _ (fun k => k ∈ mIAR) _ _ (fun r x hx hkk => by
      rcases (Rec.mem_keys_set r x k _).mp hkk with h | rfl
      · exact Or.inl h
      · exact Or.inr hx) hk with h | h
  · rcases mem_keys_foldl_sub _ _
      (fun k => (∃ i, k = "category-" ++ Nat.repr i) ∨ k = "order" ∨ k = "grandtotal") _ _
      (fun r x _ hkk => by
        rcases (Rec.mem_keys_set _ _ k _).mp hkk with h | rfl
        · rcases (Rec.mem_keys_set _ _ k _).mp h with h | rfl
          · rcases (Rec.mem_keys_set _ _ k _).mp h with h | rfl
            · exact Or.inl h
            · exact Or.inr (Or.inl ⟨x + 1, rfl⟩)
          · exact Or.inr (Or.inr (Or.inl rfl))
        · exact Or.inr (Or.inr (Or.inr rfl))) h with h2 | h2
    · have h3 : k = "category" ∨ k = "subtotal" := by
        simpa [Rec.keys] using h2
      rcases h3 with h2 | h2
      · exact Or.inl h2
      · exact Or.inr (Or.inl h2)
    · rcases h2 with h2 | h2 | h2
      · exact Or.inr (Or.inr (Or.inl h2))
      · exact Or.inr (Or.inr (Or.inr (Or.inl h2)))
      · exact Or.inr (Or.inr (Or.inr (Or.inr (Or.inl h2))))
  · exact Or.inr (Or.inr (Or.inr (Or.inr (Or.inr h))))

theorem mem_keys_cumulOverwrite (ml : List String) (ms : String) (r : Rec) (k : String)
    (hk : k ∈ (cumulOverwrite ml ms r).keys) :
    k ∈ r.keys ∨ ∃ m ∈ ml, k = "Cumul || " ++ m := by
  rw [cumulOverwrite] at hk
  exact mem_keys_foldl_sub _ _ (fun k => ∃ m ∈ ml, k = "Cumul || " ++ m) _ _
    (fun r x hx hkk => by
      rcases (Rec.mem_keys_set _ _ k _).mp hkk with h | rfl
      · exact Or.inl h
      · exact Or.inr ⟨x, hx, rfl⟩) hk

theorem get_cumulOverwrite_subtotal (ml : List String) (ms : String) (r : Rec) :
    (cumulOverwrite ml ms r).get "subtotal" = r.get "subtotal" :=
  get_cumulOverwrite_no_space ml ms r _ (by decide)

/-- Configuration for the C10 counterexample: an explicit order slot
reorders the leaves before `measuresInAllRecords` is read. -/
def cfgC10 : Cfg := ⟨true, 1, ["M"]⟩

/-- Rows for the C10 counterexample: the first-created leaf (A, order 2)
only has a January column; the order sort moves leaf B (order 1, with a
February column) to the front. -/
def dataC10 : List Row :=
  [[vstr "Jan", vnum 2, vstr "A", vnum 10],
   [vstr "Jan", vnum 1, vstr "B", vnum 5],
   [vstr "Feb", vnum 1, vstr "B", vnum 7]]

/-- C10 counterexample: the first-CREATED leaf record does not carry the
column `'Feb || M'`, yet the grand-total record does — because the value
column set is read from the first record AFTER the weak order sort, not
from the first-created record. -/
theorem C10_counterexample :
    Rec.hasKey ((stageA cfgC10 dataC10).records.headD []) "Feb || M" = false ∧
    ((finalRecords cfgC10 dataC10).getLastD []).get "grandtotal" = vbool true ∧
    Rec.hasKey ((finalRecords cfgC10 dataC10).getLastD []) "Feb || M" = true := by
  decide

/-- C10 (amended): the value columns of every subtotal and of the grand
total are derived solely from the keys of the first record of the
order-sorted leaf list (which is the first-created leaf only when the
weak sort moves nothing): any `period || measure` column (with a
space-free period label other than `'Cumul'`) that this record does not
carry is carried by no `subtotal`-flagged record of the output — the
grand total included, as it is itself flagged `subtotal`. -/
theorem C10_amended (cfg : Cfg) (data : List Row) (recs : List Rec) (p m : String)
    (h : renderPipeline cfg data = RenderResult.table recs)
    (hp : ' ' ∉ p.data) (hpc : p ≠ "Cumul")
    (hk : (p ++ " || " ++ m) ∉ ((sortedLeaves cfg data).headD []).keys) :
    ∀ r ∈ recs, truthy (r.get "subtotal") = true → (p ++ " || " ++ m) ∉ r.keys := by
  obtain ⟨rfl, -, -, -⟩ := renderPipeline_table cfg data recs h
  have hsp : ' ' ∈ (p ++ " || " ++ m).data := sep_key_has_space p m
  have hnotmIAR : (p ++ " || " ++ m) ∉ mIAROf cfg data := by
    intro hmem
    exact hk (mem_mIAR_sub cfg (sortedLeaves cfg data) _ hmem)
  have hGoodNe : ∀ k : String, k = "category" ∨ k = "subtotal" ∨
      (∃ i, k = "category-" ++ Nat.repr i) ∨ k = "order" ∨ k = "grandtotal" →
      (p ++ " || " ++ m) ≠ k := by
    rintro k (rfl | rfl | ⟨i, rfl⟩ | rfl | rfl) he
    · rw [he] at hsp
      exact absurd hsp (by decide)
    · rw [he] at hsp
      exact absurd hsp (by decide)
    · rw [he] at hsp
      exact catkey_no_space i hsp
    · rw [he] at hsp
      exact absurd hsp (by decide)
    · rw [he] at hsp
      exact absurd hsp (by decide)
  have hCumulNe : ∀ m' : String, (p ++ " || " ++ m) ≠ ("Cumul || " ++ m') := by
    intro m' he
    exact cumul_key_ne_month_key m' p m hp hpc he.symm
  have hWS : ∀ r ∈ withSubtotals cfg data, truthy (r.get "subtotal") = true →
      (p ++ " || " ++ m) ∉ r.keys := by
    intro r hr hflag hmem
    by_cases hN : 1 < cfg.numberOfCategories
    · rw [withSubtotals_eq cfg data hN] at hr
      rcases List.mem_append.mp hr with hr | hr
      · rw [(sortedLeaves_leafShape cfg data r hr).get_subtotal] at hflag
        exact Bool.noConfusion hflag
      · rcases List.mem_map.mp hr with ⟨label, _, rfl⟩
        rcases mem_keys_mkSubtotal cfg _ _ label _ hmem with h1 | h1 | h1 | h1
        · exact hGoodNe _ (Or.inl rfl) h1
        · exact hGoodNe _ (Or.inr (Or.inl rfl)) h1
        · rcases h1 with ⟨i, h1⟩
          exact hGoodNe _ (Or.inr (Or.inr (Or.inl ⟨i, rfl⟩))) h1
        · exact hnotmIAR h1
    · rw [withSubtotals, addSubtotals, if_neg hN] at hr
      rw [(sortedLeaves_leafShape cfg data r hr).get_subtotal] at hflag
      exact Bool.noConfusion hflag
  have hAI : ∀ r ∈ afterInitial cfg data, truthy (r.get "subtotal") = true →
      (p ++ " || " ++ m) ∉ r.keys := by
    intro r hr hflag hmem
    rcases mem_initialCorrection _ _ _ _ hr with hr | ⟨x, hx, rfl⟩
    · exact hWS r hr hflag hmem
    · rw [get_cumulOverwrite_subtotal] at hflag
      rcases mem_keys_cumulOverwrite _ _ _ _ hmem with h1 | ⟨m', _, h1⟩
      · exact hWS x hx hflag h1
      · exact hCumulNe m' h1
  have hWG : ∀ r ∈ withGrandTotal cfg data, truthy (r.get "subtotal") = true →
      (p ++ " || " ++ m) ∉ r.keys := by
    intro r hr hflag hmem
    rw [withGrandTotal] at hr
    rcases List.mem_append.mp hr with hr | hr
    · exact hAI r hr hflag hmem
    · rcases List.mem_singleton.mp hr with rfl
      rcases mem_keys_mkGrandTotal cfg _ _ _ hmem with h1 | h1 | h1 | h1 | h1 | h1
      · exact hGoodNe _ (Or.inl rfl) h1
      · exact hGoodNe _ (Or.inr (Or.inl rfl)) h1
      · rcases h1 with ⟨i, h1⟩
        exact hGoodNe _ (Or.inr (Or.inr (Or.inl ⟨i, rfl⟩))) h1
      · exact hGoodNe _ (Or.inr (Or.inr (Or.inr (Or.inl rfl)))) h1
      · exact hGoodNe _ (Or.inr (Or.inr (Or.inr (Or.inr rfl)))) h1
      · exact hnotmIAR h1
  intro r hr hflag hmem
  rw [finalRecords, mem_sortCmp] at hr
  rcases mem_grandTotalCorrection _ _ _ _ hr with hr | ⟨x, hx, rfl⟩
  · exact hWG r hr hflag hmem
  · rw [get_cumulOverwrite_subtotal] at hflag
    rcases mem_keys_cumulOverwrite _ _ _ _ hmem with h1 | ⟨m', _, h1⟩
    · exact hWG x hx hflag h1
    · exact hCumulNe m' h1

/-- Configuration for the C10 witness. -/
def cfgC10w : Cfg := ⟨false, 2, ["M"]⟩

/-- Rows for the C10 witness: the leaves carry only January and
February columns. -/
def dataC10w : List Row :=
  [[vstr "Jan", vstr "R", vstr "a", vnum 1],
   [vstr "Feb", vstr "S", vstr "b", vnum 2]]

/-- Witness for C10 (amended): the grand-total record of a concrete run
is `subtotal`-flagged and carries no `'Mar || M'` column. -/
theorem C10_witness :
    truthy (((finalRecords cfgC10w dataC10w).getLastD []).get "subtotal") = true ∧
    ("Mar || M" ∉ ((finalRecords cfgC10w dataC10w).getLastD []).keys) :=
  ⟨by decide,
    C10_amended cfgC10w dataC10w _ "Mar" "M" rfl (by decide) (by decide) (by decide)
      ((finalRecords cfgC10w dataC10w).getLastD []) (by decide) (by decide)⟩

/-! ## Cumulative-column values and sum congruence -/

/-- Whether a value is a (non-`NaN`) number. -/
def Val.isNum : Val → Bool
  | vnum _ => true
  | _ => false

theorem isNum_iff (v : Val) : v.isNum = true ↔ ∃ n : Int, v = vnum n := by
  cases v <;> simp [Val.isNum]

/-- The zero-filling running total the cumulative pass computes for one
measure, read off the record's own month columns (`Number(v ?? 0)`
added across the months in first-seen order). -/
def cumulFormula (months : List Val) (measure : String) (r : Rec) : Val :=
  months.foldl
    (fun acc month =>
      nadd (numOrZero acc) (numOrZero (r.get (month.jsToString ++ " || " ++ measure))))
    (vnum 0)

theorem cumulFormula_congr (months : List Val) (measure : String) (r r' : Rec)
    (h : ∀ mo ∈ months, r'.get (mo.jsToString ++ " || " ++ measure) =
      r.get (mo.jsToString ++ " || " ++ measure)) :
    cumulFormula months measure r' = cumulFormula months measure r := by
  rw [cumulFormula, cumulFormula]
  have key : ∀ (ms : List Val) (acc : Val),
      (∀ mo ∈ ms, r'.get (mo.jsToString ++ " || " ++ measure) =
        r.get (mo.jsToString ++ " || " ++ measure)) →
      ms.foldl (fun acc month =>
          nadd (numOrZero acc) (numOrZero (r'.get (month.jsToString ++ " || " ++ measure)))) acc =
      ms.foldl (fun acc month =>
          nadd (numOrZero acc) (numOrZero (r.get (month.jsToString ++ " || " ++ measure)))) acc := by
    intro ms
    induction ms with
    | nil => intro acc _; rfl
    | cons mo rest ih =>
      intro acc hh
      rw [List.foldl_cons, List.foldl_cons, hh mo (List.mem_cons_self mo rest)]
      exact ih _ (fun m hm => hh m (List.mem_cons_of_mem mo hm))
  exact key months _ h

theorem get_cumulMeasure_ne (months : List Val) (mea : String) (r : Rec) (k : String)
    (h : k ≠ "Cumul || " ++ mea) : (cumulMeasure months mea r).get k = r.get k := by
  rw [cumulMeasure]
  rw [get_foldl_pres _ _ _ _ (fun r' mo _ => Rec.get_set_ne _ _ _ _ (fun e => h e.symm))]
  exact Rec.get_set_ne _ _ _ _ (fun e => h e.symm)

/-- The cumulative pass computes exactly the zero-filled running total,
provided no month/measure column name collides with a cumulative column
name. -/
theorem cumulMeasure_value (months : List Val) (mea : String) (r : Rec)
    (hcl : ∀ mo ∈ months, (mo.jsToString ++ " || " ++ mea) ≠ ("Cumul || " ++ mea)) :
    (cumulMeasure months mea r).get ("Cumul || " ++ mea) = cumulFormula months mea r := by
  rw [cumulMeasure, cumulFormula]
  have key : ∀ (ms : List Val) (r' : Rec),
      (∀ mo ∈ ms, (mo.jsToString ++ " || " ++ mea) ≠ ("Cumul || " ++ mea)) →
      (∀ mo ∈ ms, r'.get (mo.jsToString ++ " || " ++ mea) =
        r.get (mo.jsToString ++ " || " ++ mea)) →
      (ms.foldl (fun rr month =>
          rr.set ("Cumul || " ++ mea)
            (nadd (numOrZero (rr.get ("Cumul || " ++ mea)))
                  (numOrZero (rr.get (month.jsToString ++ " || " ++ mea))))) r').get
        ("Cumul || " ++ mea) =
      ms.foldl (fun acc month =>
          nadd (numOrZero acc) (numOrZero (r.get (month.jsToString ++ " || " ++ mea))))
        (r'.get ("Cumul || " ++ mea)) := by
    intro ms
    induction ms with
    | nil => intro r' _ _; rfl
    | cons mo rest ih =>
      intro r' hcl2 hagree
      rw [List.foldl_cons, List.foldl_cons]
      have hmo := hagree mo (List.mem_cons_self mo rest)
      have hset := Rec.get_set_self r' ("Cumul || " ++ mea)
        (nadd (numOrZero (r'.get ("Cumul || " ++ mea)))
              (numOrZero (r'.get (mo.jsToString ++ " || " ++ mea))))
      rw [ih _ (fun m hm => hcl2 m (List.mem_cons_of_mem mo hm)) (fun m hm => by
        rw [Rec.get_set_ne _ _ _ _ (fun e => hcl2 m (List.mem_cons_of_mem mo hm) e.symm)]
        exact hagree m (List.mem_cons_of_mem mo hm)), hset, hmo]
  have h0 := key months (r.set ("Cumul || " ++ mea) (vnum 0)) hcl (fun m hm => by
    rw [Rec.get_set_ne _ _ _ _ (fun e => hcl m hm e.symm)])
  rw [h0, Rec.get_set_self]

theorem get_cumulize_not_mem (months : List Val) (measures : List String) (r : Rec)
    (mea : String) (h : mea ∉ measures) :
    (cumulize months measures r).get ("Cumul || " ++ mea) = r.get ("Cumul || " ++ mea) := by
  rw [cumulize]
  induction measures generalizing r with
  | nil => rfl
  | cons m0 rest ih =>
    rw [List.foldl_cons]
    rw [ih _ (fun hm => h (List.mem_cons_of_mem m0 hm))]
    refine get_cumulMeasure_ne _ _ _ _ (fun e => ?_)
    exact h (cumul_key_inj e ▸ List.mem_cons_self m0 rest)

theorem get_cumulMeasure_month (months : List Val) (m0 : String) (r : Rec) (mo : Val)
    (mea : String) (hne : (mo.jsToString ++ " || " ++ mea) ≠ ("Cumul || " ++ m0)) :
    (cumulMeasure months m0 r).get (mo.jsToString ++ " || " ++ mea) =
      r.get (mo.jsToString ++ " || " ++ mea) :=
  get_cumulMeasure_ne _ _ _ _ hne

/-- The cumulative pass gives every measure of its list the zero-filled
running total, whatever the processing order. -/
theorem cumulize_value (months : List Val) (measures : List String) (r : Rec) (mea : String)
    (hmem : mea ∈ measures)
    (hcl : ∀ mo ∈ months, ∀ m1 ∈ measures, ∀ m2 ∈ measures,
      (mo.jsToString ++ " || " ++ m1) ≠ ("Cumul || " ++ m2)) :
    (cumulize months measures r).get ("Cumul || " ++ mea) = cumulFormula months mea r := by
  induction measures generalizing r with
  | nil => exact absurd hmem (List.not_mem_nil mea)
  | cons m0 rest ih =>
    rw [cumulize, List.foldl_cons, ← cumulize]
    by_cases hr : mea ∈ rest
    · rw [ih _ hr (fun mo hmo m1 hm1 m2 hm2 =>
        hcl mo hmo m1 (List.mem_cons_of_mem m0 hm1) m2 (List.mem_cons_of_mem m0 hm2))]
      refine cumulFormula_congr months mea r _ (fun mo hmo => ?_)
      exact get_cumulMeasure_month _ _ _ _ _
        (hcl mo hmo mea hmem m0 (List.mem_cons_self m0 rest))
    · have hm0 : mea = m0 := by
        rcases List.mem_cons.mp hmem with h | h
        · exact h
        · exact absurd h hr
      subst hm0
      rw [get_cumulize_not_mem _ _ _ _ hr]
      exact cumulMeasure_value months mea r
        (fun mo hmo => hcl mo hmo mea hmem mea hmem)

/-- Stage B in terms of the zero-filled running total. -/
theorem stageB_cumul_value (cfg : Cfg) (data : List Row) (mea : String)
    (hmem : mea ∈ cfg.measureLabels)
    (hcl : ∀ mo ∈ monthsOf cfg data, ∀ m1 ∈ cfg.measureLabels, ∀ m2 ∈ cfg.measureLabels,
      (mo.jsToString ++ " || " ++ m1) ≠ ("Cumul || " ++ m2)) :
    ∀ r ∈ stageB cfg data, r.get ("Cumul || " ++ mea) = cumulFormula (monthsOf cfg data) mea r := by
  intro r hr
  rw [stageB] at hr
  rcases List.mem_map.mp hr with ⟨x, hx, rfl⟩
  rw [cumulize_value _ _ _ _ hmem hcl]
  refine (cumulFormula_congr _ _ x _ (fun mo hmo => ?_)).symm
  rw [cumulize]
  refine get_foldl_pres _ _ _ _ (fun r' m0 hm0 => ?_)
  exact get_cumulMeasure_month _ _ _ _ _ (hcl mo hmo mea hmem m0 hm0)

/-- A JS field sum only depends on the coerced field values. -/
theorem sumField_congr (l l' : List Rec) (k : String)
    (h : l.map (fun r => toNumber (r.get k)) = l'.map (fun r => toNumber (r.get k))) :
    sumField l k = sumField l' k := by
  rw [sumField, sumField]
  have key : ∀ (a b : List Rec) (acc : Val),
      a.map (fun r => toNumber (r.get k)) = b.map (fun r => toNumber (r.get k)) →
      a.foldl (fun acc r => nadd acc (toNumber (r.get k))) acc =
        b.foldl (fun acc r => nadd acc (toNumber (r.get k))) acc := by
    intro a
    induction a with
    | nil =>
      intro b acc hh
      cases b with
      | nil => rfl
      | cons y ys => exact absurd hh (by simp)
    | cons x xs ih =>
      intro b acc hh
      cases b with
      | nil => exact absurd hh (by simp)
      | cons y ys =>
        rw [List.map_cons, List.map_cons] at hh
        obtain ⟨h1, h2⟩ := List.cons.injEq _ _ _ _ ▸ hh
        rw [List.foldl_cons, List.foldl_cons, h1]
        exact ih ys _ h2
  exact key l l' _ h

theorem get_cumulOverwrite_ne_cumul (ml : List String) (ms : String) (r : Rec) (k : String)
    (h : ∀ m ∈ ml, ("Cumul || " ++ m) ≠ k) : (cumulOverwrite ml ms r).get k = r.get k := by
  rw [cumulOverwrite]
  exact get_foldl_pres _ _ _ _ (fun r' m hm => Rec.get_set_ne _ _ _ _ (h m hm))

/-- What the cumulative-snapshot overwrite writes: the record's own
value for the snapshot month, provided month columns and cumulative
columns do not collide. -/
theorem cumulOverwrite_get_cumul (ml : List String) (ms : String) (r : Rec) (mea : String)
    (hmem : mea ∈ ml)
    (hcl : ∀ m1 ∈ ml, ∀ m2 ∈ ml, (ms ++ " || " ++ m1) ≠ ("Cumul || " ++ m2)) :
    (cumulOverwrite ml ms r).get ("Cumul || " ++ mea) = r.get (ms ++ " || " ++ mea) := by
  rw [cumulOverwrite]
  have key : ∀ (l : List String) (r' : Rec),
      (∀ m1 ∈ l, ∀ m2 ∈ l, (ms ++ " || " ++ m1) ≠ ("Cumul || " ++ m2)) →
      (∀ m ∈ l, r'.get (ms ++ " || " ++ m) = r.get (ms ++ " || " ++ m)) →
      mea ∈ l →
      (l.foldl (fun rr m => rr.set ("Cumul || " ++ m) (rr.get (ms ++ " || " ++ m))) r').get
        ("Cumul || " ++ mea) = r.get (ms ++ " || " ++ mea) := by
    intro l
    induction l with
    | nil => intro r' _ _ hm; exact absurd hm (List.not_mem_nil mea)
    | cons m0 rest ih =>
      intro r' hcl2 hagree hm
      rw [List.foldl_cons]
      by_cases hr : mea ∈ rest
      · refine ih _ (fun m1 h1 m2 h2 =>
          hcl2 m1 (List.mem_cons_of_mem m0 h1) m2 (List.mem_cons_of_mem m0 h2)) ?_ hr
        intro m hmr
        rw [Rec.get_set_ne _ _ _ _ (fun e =>
          hcl2 m (List.mem_cons_of_mem m0 hmr) m0 (List.mem_cons_self m0 rest) e.symm)]
        exact hagree m (List.mem_cons_of_mem m0 hmr)
      · have hm0 : mea = m0 := by
          rcases List.mem_cons.mp hm with h | h
          · exact h
          · exact absurd h hr
        subst hm0
        have hpres : ∀ (l2 : List String) (rr : Rec), mea ∉ l2 →
            (l2.foldl (fun rr m => rr.set ("Cumul || " ++ m) (rr.get (ms ++ " || " ++ m))) rr).get
              ("Cumul || " ++ mea) = rr.get ("Cumul || " ++ mea) := by
          intro l2
          induction l2 with
          | nil => intro rr _; rfl
          | cons x xs ih2 =>
            intro rr hnot
            rw [List.foldl_cons]
            rw [ih2 _ (fun hx => hnot (List.mem_cons_of_mem x hx))]
            refine Rec.get_set_ne _ _ _ _ (fun e => ?_)
            exact hnot ((cumul_key_inj e).symm ▸ List.mem_cons_self x xs)
        rw [hpres rest _ hr, Rec.get_set_self]
        exact hagree mea (List.mem_cons_self mea rest)
  exact key ml r hcl (fun m _ => rfl) hmem

theorem mem_or_image_modifyAt (l : List Rec) (i : Nat) (f : Rec → Rec) (r0 : Rec)
    (h : r0 ∈ l) : r0 ∈ modifyAt l i f ∨ f r0 ∈ modifyAt l i f := by
  induction l generalizing i with
  | nil => exact absurd h (List.not_mem_nil r0)
  | cons x xs ih =>
    cases i with
    | zero =>
      rcases List.mem_cons.mp h with rfl | h
      · exact Or.inr (List.mem_cons_self _ _)
      · exact Or.inl (List.mem_cons_of_mem _ h)
    | succ i =>
      rcases List.mem_cons.mp h with rfl | h
      · exact Or.inl (List.mem_cons_self _ _)
      · rcases ih i h with h2 | h2
        · exact Or.inl (List.mem_cons_of_mem _ h2)
        · exact Or.inr (List.mem_cons_of_mem _ h2)

theorem mem_or_image_initialCorrection (ml : List String) (months : List Val) (l : List Rec)
    (r0 : Rec) (h : r0 ∈ l) :
    r0 ∈ initialCorrection ml months l ∨
      cumulOverwrite ml (months.headD vundef).jsToString r0 ∈ initialCorrection ml months l := by
  rw [initialCorrection]
  cases l.findIdx? (fun x => jsEqb (x.get "category") (vstr "Initial || Solde Initial")) with
  | none => exact Or.inl h
  | some i => exact mem_or_image_modifyAt l i _ r0 h

theorem mem_or_image_grandTotalCorrection (ml : List String) (months : List Val) (l : List Rec)
    (r0 : Rec) (h : r0 ∈ l) :
    r0 ∈ grandTotalCorrection ml months l ∨
      cumulOverwrite ml (months.getLastD vundef).jsToString r0 ∈
        grandTotalCorrection ml months l := by
  rw [grandTotalCorrection]
  cases l.findIdx? (fun x => jsEqb (x.get "category") (vstr "Grand Total")) with
  | none => exact Or.inl h
  | some i => exact mem_or_image_modifyAt l i _ r0 h

/-- Filtering out the `subtotal`-flagged records of the subtotal pass
recovers exactly the sorted leaves. -/
theorem withSubtotals_filter_not_subtotal (cfg : Cfg) (data : List Row) :
    (withSubtotals cfg data).filter (fun r => !(truthy (r.get "subtotal"))) =
      sortedLeaves cfg data := by
  have hleaves : (sortedLeaves cfg data).filter (fun r => !(truthy (r.get "subtotal"))) =
      sortedLeaves cfg data := by
    rw [List.filter_eq_self]
    intro r hr
    rw [(sortedLeaves_leafShape cfg data r hr).get_subtotal]
    rfl
  by_cases hN : 1 < cfg.numberOfCategories
  · rw [withSubtotals_eq cfg data hN, List.filter_append, hleaves]
    have hsubs : (((firstSeen (sortedLeaves cfg data) "category-1").filter
        (fun l => !(isBoundary l))).map
          (mkSubtotal cfg (mIAROf cfg data) (sortedLeaves cfg data))).filter
        (fun r => !(truthy (r.get "subtotal"))) = [] := by
      rw [List.filter_eq_nil_iff]
      intro r hr
      rcases List.mem_map.mp hr with ⟨label, _, rfl⟩
      rw [mkSubtotal_get_subtotal _ _ _ _ (subtotal_not_mem_mIAR cfg data)]
      simp [truthy]
    rw [hsubs, List.append_nil]
  · rw [withSubtotals, addSubtotals, if_neg hN, hleaves]

/-! ## Claim C1: the grand total's column values -/

/-- Restricted to a non-`Cumul` column, the non-subtotal records of the
post-initial-correction list coerce exactly like the sorted leaves. -/
theorem afterInitial_filter_map (cfg : Cfg) (data : List Row) (k : String)
    (hnc : ∀ m ∈ cfg.measureLabels, ("Cumul || " ++ m) ≠ k) :
    ((afterInitial cfg data).filter (fun r => !(truthy (r.get "subtotal")))).map
        (fun r => toNumber (r.get k)) =
      (sortedLeaves cfg data).map (fun r => toNumber (r.get k)) := by
  rw [afterInitial, initialCorrection]
  cases (withSubtotals cfg data).findIdx?
      (fun r => jsEqb (r.get "category") (vstr "Initial || Solde Initial")) with
  | none =>
    rw [withSubtotals_filter_not_subtotal]
  | some i =>
    rw [filter_map_modifyAt _ _ _ _ _
      (fun x => by rw [get_cumulOverwrite_subtotal])
      (fun x => by rw [get_cumulOverwrite_ne_cumul _ _ _ _ hnc])]
    rw [withSubtotals_filter_not_subtotal]

/-- What the grand-total record actually carries at a schema column that
is not a cumulative column: the NaN-propagating JS sum of that column
over the sorted leaves. -/
theorem grandTotal_value (cfg : Cfg) (data : List Row) (k : String)
    (hk : k ∈ mIAROf cfg data)
    (hnc : ∀ m ∈ cfg.measureLabels, ("Cumul || " ++ m) ≠ k) :
    (mkGrandTotal cfg (mIAROf cfg data) (afterInitial cfg data)).get k =
      sumField (sortedLeaves cfg data) k := by
  rw [mkGrandTotal_get_value _ _ _ _ hk]
  exact sumField_congr _ _ _ (afterInitial_filter_map cfg data k hnc)

def cfgC1 : Cfg := ⟨false, 2, ["M"]⟩

/-- Rows for the C1 counterexample: the two leaves carry disjoint month
columns, so each misses the other's column. -/
def dataC1 : List Row :=
  [[vstr "2024-01", vstr "A", vstr "x", vnum 10],
   [vstr "2024-02", vstr "B", vstr "y", vnum 5]]

/-- C1 counterexample: `'2024-01 || M'` is a schema column; the leaf `B`
misses it, and instead of the claimed zero-filled sum `10` the grand
total carries `NaN` there — `Number(undefined)` is `NaN`, not `0`, in
the grand-total reduce. -/
theorem C1_counterexample :
    "2024-01 || M" ∈ mIAROf cfgC1 dataC1 ∧
    ((finalRecords cfgC1 dataC1).getLastD []).get "grandtotal" = vbool true ∧
    ((finalRecords cfgC1 dataC1).getLastD []).get "2024-01 || M" = vnan ∧
    ((sortedLeaves cfgC1 dataC1).map (fun r => numVal r "2024-01 || M")).sum = 10 := by
  decide

/-- C1 (amended): in every rendered table some record flagged
`grandtotal` carries, at every schema column `k` that is not a
cumulative column, the NaN-propagating JS sum of `k` over the leaf
records; only when every leaf holds a number at `k` does this equal the
claimed numeric sum — a leaf missing the column poisons the total to
`NaN` rather than contributing `0`. -/
theorem C1_amended (cfg : Cfg) (data : List Row) (recs : List Rec) (k : String)
    (h : renderPipeline cfg data = RenderResult.table recs)
    (hk : k ∈ mIAROf cfg data)
    (hnc : ∀ m ∈ cfg.measureLabels, ("Cumul || " ++ m) ≠ k) :
    ∃ gtr ∈ recs, Rec.get gtr "grandtotal" = vbool true ∧
      Rec.get gtr k = sumField (sortedLeaves cfg data) k ∧
      ((∀ r ∈ sortedLeaves cfg data, (Rec.get r k).isNum = true) →
        Rec.get gtr k = vnum (((sortedLeaves cfg data).map (fun r => numVal r k)).sum)) := by
  obtain ⟨rfl, -, -, hN⟩ := renderPipeline_table cfg data recs h
  have hN1 : 1 ≤ cfg.numberOfCategories := Nat.one_le_iff_ne_zero.mpr hN
  set gt := mkGrandTotal cfg (mIAROf cfg data) (afterInitial cfg data) with hgt
  have hmem : gt ∈ withGrandTotal cfg data := by
    rw [withGrandTotal]
    exact List.mem_append_right _ (List.mem_singleton.mpr rfl)
  have hgtv : gt.get "grandtotal" = vbool true :=
    mkGrandTotal_get_grandtotal _ _ _ (grandtotal_not_mem_mIAR cfg data) hN1
  have hgtk : gt.get k = sumField (sortedLeaves cfg data) k :=
    grandTotal_value cfg data k hk hnc
  have hcases := mem_or_image_grandTotalCorrection cfg.measureLabels (monthsOf cfg data)
    (withGrandTotal cfg data) gt hmem
  have hfinal : ∃ gtr ∈ afterGTCorrection cfg data,
      Rec.get gtr "grandtotal" = vbool true ∧
      Rec.get gtr k = sumField (sortedLeaves cfg data) k := by
    rcases hcases with h2 | h2
    · exact ⟨gt, h2, hgtv, hgtk⟩
    · refine ⟨_, h2, ?_, ?_⟩
      · rw [get_cumulOverwrite_no_space _ _ _ _ (by decide)]
        exact hgtv
      · rw [get_cumulOverwrite_ne_cumul _ _ _ _ hnc]
        exact hgtk
  obtain ⟨gtr, hmem2, hv, hkval⟩ := hfinal
  refine ⟨gtr, ?_, hv, hkval, ?_⟩
  · rw [finalRecords]
    exact (mem_sortCmp _ _ _).mpr hmem2
  · intro hnum
    rw [hkval]
    refine sumField_num _ _ (fun r hr => ?_)
    obtain ⟨n, hn⟩ := (isNum_iff _).mp (hnum r hr)
    exact ⟨n, by rw [hn]; rfl⟩

def cfgC1w : Cfg := ⟨false, 2, ["M"]⟩

/-- Rows for the C1 witness: both leaves carry the single month column,
so the grand total's value is the genuine numeric sum. -/
def dataC1w : List Row :=
  [[vstr "Jan", vstr "A", vstr "x", vnum 10],
   [vstr "Jan", vstr "B", vstr "y", vnum 5]]

/-- Witness for C1 (amended) at a concrete homogeneous input: the
conclusion instantiated at column `'Jan || M'`. -/
theorem C1_witness :
    ∃ gtr ∈ finalRecords cfgC1w dataC1w, Rec.get gtr "grandtotal" = vbool true ∧
      Rec.get gtr "Jan || M" = sumField (sortedLeaves cfgC1w dataC1w) "Jan || M" ∧
      ((∀ r ∈ sortedLeaves cfgC1w dataC1w, (Rec.get r "Jan || M").isNum = true) →
        Rec.get gtr "Jan || M" =
          vnum (((sortedLeaves cfgC1w dataC1w).map (fun r => numVal r "Jan || M")).sum)) :=
  C1_amended cfgC1w dataC1w _ "Jan || M" rfl (by decide) (by decide)

/-! ## Claim C7: the missing-value policy of the three sum sites -/

/-- The rendered table always contains a `grandtotal`-flagged record
whose value at a non-`Cumul` schema column is the NaN-propagating JS sum
of that column over the sorted leaves. -/
theorem grandTotal_in_final (cfg : Cfg) (data : List Row) (k : String)
    (hN : cfg.numberOfCategories ≠ 0)
    (hk : k ∈ mIAROf cfg data)
    (hnc : ∀ m ∈ cfg.measureLabels, ("Cumul || " ++ m) ≠ k) :
    ∃ gtr ∈ finalRecords cfg data, Rec.get gtr "grandtotal" = vbool true ∧
      Rec.get gtr k = sumField (sortedLeaves cfg data) k := by
  have hN1 : 1 ≤ cfg.numberOfCategories := Nat.one_le_iff_ne_zero.mpr hN
  set gt := mkGrandTotal cfg (mIAROf cfg data) (afterInitial cfg data) with hgt
  have hmem : gt ∈ withGrandTotal cfg data := by
    rw [withGrandTotal]
    exact List.mem_append_right _ (List.mem_singleton.mpr rfl)
  have hgtv : gt.get "grandtotal" = vbool true :=
    mkGrandTotal_get_grandtotal _ _ _ (grandtotal_not_mem_mIAR cfg data) hN1
  have hgtk : gt.get k = sumField (sortedLeaves cfg data) k :=
    grandTotal_value cfg data k hk hnc
  have hcases := mem_or_image_grandTotalCorrection cfg.measureLabels (monthsOf cfg data)
    (withGrandTotal cfg data) gt hmem
  have hfinal : ∃ gtr ∈ afterGTCorrection cfg data,
      Rec.get gtr "grandtotal" = vbool true ∧
      Rec.get gtr k = sumField (sortedLeaves cfg data) k := by
    rcases hcases with h2 | h2
    · exact ⟨gt, h2, hgtv, hgtk⟩
    · refine ⟨_, h2, ?_, ?_⟩
      · rw [get_cumulOverwrite_no_space _ _ _ _ (by decide)]
        exact hgtv
      · rw [get_cumulOverwrite_ne_cumul _ _ _ _ hnc]
        exact hgtk
  obtain ⟨gtr, hmem2, hv, hkval⟩ := hfinal
  refine ⟨gtr, ?_, hv, hkval⟩
  rw [finalRecords]
  exact (mem_sortCmp _ _ _).mpr hmem2

def cfgC7 : Cfg := ⟨false, 2, ["M"]⟩

/-- Rows for the C7 counterexample: two leaves under the same top-level
label, each carrying only its own month column. -/
def dataC7 : List Row :=
  [[vstr "Jan", vstr "R", vstr "a", vnum 10],
   [vstr "Feb", vstr "R", vstr "b", vnum 5]]

/-- C7 counterexample: `'Jan || M'` is a schema column missing from the
second leaf; the subtotal for `R` carries `NaN` there, not the zero-
filled sum `10` — the subtotal and grand-total reduces use
`Number(record[measure])` with no `?? 0`, so a missing value is `NaN`,
not `0`. -/
theorem C7_counterexample :
    "Jan || M" ∈ mIAROf cfgC7 dataC7 ∧
    (finalRecords cfgC7 dataC7).any
      (fun r => truthy (r.get "subtotal") && !(truthy (r.get "grandtotal")) &&
        (r.get "Jan || M" == vnan)) = true ∧
    (((sortedLeaves cfgC7 dataC7).filter (subtotalSel (vstr "R"))).map
      (fun r => numVal r "Jan || M")).sum = 10 := by
  decide

/-- C7 (amended): the zero-fill policy holds only at the cumulative
pass — every sorted leaf's `Cumul || measure` value is the running total
of its month columns with `Number(v ?? 0)` coercion (missing month
contributes 0) — whereas the subtotal and grand-total reduces coerce
with a bare `Number(...)`: a leaf missing a schema column makes the
grand total's value for that column `NaN` (non-numeric), not a
zero-filled sum. -/
theorem C7_amended (cfg : Cfg) (data : List Row) (recs : List Rec) (k : String) (r0 : Rec)
    (mea : String)
    (h : renderPipeline cfg data = RenderResult.table recs)
    (hmea : mea ∈ cfg.measureLabels)
    (hcl : ∀ mo ∈ monthsOf cfg data, ∀ m1 ∈ cfg.measureLabels, ∀ m2 ∈ cfg.measureLabels,
      (mo.jsToString ++ " || " ++ m1) ≠ ("Cumul || " ++ m2))
    (hk : k ∈ mIAROf cfg data)
    (hnc : ∀ m ∈ cfg.measureLabels, ("Cumul || " ++ m) ≠ k)
    (hr0 : r0 ∈ sortedLeaves cfg data) (hmiss : Rec.get r0 k = vundef) :
    (∀ r ∈ sortedLeaves cfg data,
      Rec.get r ("Cumul || " ++ mea) = cumulFormula (monthsOf cfg data) mea r) ∧
    ∃ gtr ∈ recs, Rec.get gtr "grandtotal" = vbool true ∧ Rec.get gtr k = vnan := by
  obtain ⟨rfl, -, -, hN⟩ := renderPipeline_table cfg data recs h
  constructor
  · intro r hr
    rw [sortedLeaves, mem_sortCmp] at hr
    exact stageB_cumul_value cfg data mea hmea hcl r hr
  · obtain ⟨gtr, hmem, hv, hkval⟩ := grandTotal_in_final cfg data k hN hk hnc
    refine ⟨gtr, hmem, hv, ?_⟩
    rw [hkval]
    exact sumField_nan _ _ r0 hr0 (by rw [hmiss]; rfl)

def cfgC7w : Cfg := ⟨false, 2, ["M"]⟩

/-- Rows for the C7 witness: the second leaf misses the first leaf's
month column. -/
def dataC7w : List Row :=
  [[vstr "Avr", vstr "P", vstr "u", vnum 4],
   [vstr "Mai", vstr "Q", vstr "v", vnum 6]]

/-- Witness for C7 (amended) at a concrete input: every leaf's `Cumul`
column is the zero-filled running total, and the grand total's
`'Avr || M'` value is `NaN`. -/
theorem C7_witness :
    (∀ r ∈ sortedLeaves cfgC7w dataC7w,
      Rec.get r ("Cumul || " ++ "M") = cumulFormula (monthsOf cfgC7w dataC7w) "M" r) ∧
    ∃ gtr ∈ finalRecords cfgC7w dataC7w, Rec.get gtr "grandtotal" = vbool true ∧
      Rec.get gtr "Avr || M" = vnan :=
  C7_amended cfgC7w dataC7w _ "Avr || M" ((sortedLeaves cfgC7w dataC7w).getLastD []) "M"
    rfl (by decide) (by decide) (by decide) (by decide) (by decide) (by decide)

/-! ## Claim C2: subtotal creation, selection and values -/

theorem mkSubtotal_get_category (cfg : Cfg) (mIAR : List String) (records : List Rec)
    (label : Val) (hm : "category" ∉ mIAR) :
    (mkSubtotal cfg mIAR records label).get "category" = label := by
  rw [mkSubtotal_get, if_neg hm, catfold_get, if_neg, get_cons_eq]
  intro h
  rcases List.mem_map.mp h with ⟨i, _, he⟩
  exact catkey_ne_category _ he

/-- A record present after the subtotal pass survives both correction
passes with its `subtotal` flag, composite key and any non-`Cumul`
column intact, and reaches the final sorted output. -/
theorem corrections_transport (cfg : Cfg) (data : List Row) (r : Rec) (k : String)
    (hr : r ∈ withSubtotals cfg data)
    (hnc : ∀ m ∈ cfg.measureLabels, ("Cumul || " ++ m) ≠ k) :
    ∃ r2 ∈ finalRecords cfg data,
      Rec.get r2 "subtotal" = Rec.get r "subtotal" ∧
      Rec.get r2 "category" = Rec.get r "category" ∧
      Rec.get r2 k = Rec.get r k := by
  have step1 : ∃ r1 ∈ afterInitial cfg data,
      Rec.get r1 "subtotal" = Rec.get r "subtotal" ∧
      Rec.get r1 "category" = Rec.get r "category" ∧
      Rec.get r1 k = Rec.get r k := by
    rw [afterInitial]
    rcases mem_or_image_initialCorrection cfg.measureLabels (monthsOf cfg data)
        (withSubtotals cfg data) r hr with h1 | h1
    · exact ⟨r, h1, rfl, rfl, rfl⟩
    · exact ⟨_, h1, get_cumulOverwrite_subtotal _ _ _, cumulOverwrite_category _ _ _,
        get_cumulOverwrite_ne_cumul _ _ _ _ hnc⟩
  obtain ⟨r1, hm1, e1, e2, e3⟩ := step1
  have hm1w : r1 ∈ withGrandTotal cfg data := by
    rw [withGrandTotal]
    exact List.mem_append_left _ hm1
  have step2 : ∃ r2 ∈ afterGTCorrection cfg data,
      Rec.get r2 "subtotal" = Rec.get r1 "subtotal" ∧
      Rec.get r2 "category" = Rec.get r1 "category" ∧
      Rec.get r2 k = Rec.get r1 k := by
    rw [afterGTCorrection]
    rcases mem_or_image_grandTotalCorrection cfg.measureLabels (monthsOf cfg data)
        (withGrandTotal cfg data) r1 hm1w with h2 | h2
    · exact ⟨r1, h2, rfl, rfl, rfl⟩
    · exact ⟨_, h2, get_cumulOverwrite_subtotal _ _ _, cumulOverwrite_category _ _ _,
        get_cumulOverwrite_ne_cumul _ _ _ _ hnc⟩
  obtain ⟨r2, hm2, f1, f2, f3⟩ := step2
  refine ⟨r2, ?_, ?_, ?_, ?_⟩
  · rw [finalRecords]
    exact (mem_sortCmp _ _ _).mpr hm2
  · rw [f1, e1]
  · rw [f2, e2]
  · rw [f3, e3]

def cfgC2 : Cfg := ⟨false, 2, ["M"]⟩

/-- Rows for the C2 counterexample: the two top-level labels each own
one leaf, and the leaves carry disjoint month columns. -/
def dataC2 : List Row :=
  [[vstr "Jan", vstr "R", vstr "a", vnum 10],
   [vstr "Feb", vstr "S", vstr "b", vnum 5]]

/-- C2 counterexample: `'Jan || M'` is a schema column; the only leaf
selected for label `S` misses it, so the subtotal for `S` carries `NaN`
there instead of the claimed sum (`0`, a number) over the selected leaf
records. -/
theorem C2_counterexample :
    "Jan || M" ∈ mIAROf cfgC2 dataC2 ∧
    (finalRecords cfgC2 dataC2).any
      (fun r => jsEqb (r.get "category") (vstr "S") && truthy (r.get "subtotal") &&
        (r.get "Jan || M" == vnan)) = true ∧
    (((sortedLeaves cfgC2 dataC2).filter
      (fun r => jsEqb (r.get "category-1") (vstr "S"))).map
        (fun r => numVal r "Jan || M")).sum = 0 := by
  decide

/-- C2 (amended): with more than one category level, every non-boundary
top-level label `L` yields a `subtotal`-flagged record labelled `L` in
the output whose value at each non-`Cumul` schema column `k` is the
NaN-propagating JS sum of `k` over the leaves selected by the source's
rule — `category-1 === L` for an ordinary label, all non-boundary
non-subtotal records for `'Cashflow Net'`; the sum is not zero-filled: a
selected leaf missing `k` makes the subtotal's value `NaN`. -/
theorem C2_amended (cfg : Cfg) (data : List Row) (recs : List Rec) (L : Val) (k : String)
    (h : renderPipeline cfg data = RenderResult.table recs)
    (hN : 1 < cfg.numberOfCategories)
    (hL : L ∈ firstSeen (sortedLeaves cfg data) "category-1")
    (hb : isBoundary L = false)
    (hk : k ∈ mIAROf cfg data)
    (hnc : ∀ m ∈ cfg.measureLabels, ("Cumul || " ++ m) ≠ k)
    (hcat : "category" ∉ mIAROf cfg data) :
    ∃ st ∈ recs, truthy (Rec.get st "subtotal") = true ∧ Rec.get st "category" = L ∧
      Rec.get st k = sumField ((sortedLeaves cfg data).filter (subtotalSel L)) k := by
  obtain ⟨rfl, -, -, -⟩ := renderPipeline_table cfg data recs h
  set st0 := mkSubtotal cfg (mIAROf cfg data) (sortedLeaves cfg data) L with hst0
  have hmem : st0 ∈ withSubtotals cfg data := by
    rw [withSubtotals_eq cfg data hN]
    refine List.mem_append_right _ (List.mem_map.mpr ⟨L, ?_, rfl⟩)
    exact List.mem_filter.mpr ⟨hL, by simp [hb]⟩
  obtain ⟨st, hmemF, e1, e2, e3⟩ := corrections_transport cfg data st0 k hmem hnc
  refine ⟨st, hmemF, ?_, ?_, ?_⟩
  · rw [e1, hst0, mkSubtotal_get_subtotal _ _ _ _ (subtotal_not_mem_mIAR cfg data)]
    rfl
  · rw [e2, hst0, mkSubtotal_get_category _ _ _ _ (hcat)]
  · rw [e3, hst0, mkSubtotal_get_value _ _ _ _ _ hk]

def cfgC2w : Cfg := ⟨false, 2, ["M"]⟩

/-- Rows for the C2 witness: label `R` owns two leaves, label `S` one,
all in the same month. -/
def dataC2w : List Row :=
  [[vstr "Jan", vstr "R", vstr "c", vnum 3],
   [vstr "Jan", vstr "R", vstr "d", vnum 4],
   [vstr "Jan", vstr "S", vstr "e", vnum 5]]

/-- Witness for C2 (amended) at a concrete input: a subtotal labelled
`R` appears with the sum of its two selected leaves. -/
theorem C2_witness :
    ∃ st ∈ finalRecords cfgC2w dataC2w, truthy (Rec.get st "subtotal") = true ∧
      Rec.get st "category" = vstr "R" ∧
      Rec.get st "Jan || M" =
        sumField ((sortedLeaves cfgC2w dataC2w).filter (subtotalSel (vstr "R"))) "Jan || M" :=
  C2_amended cfgC2w dataC2w _ (vstr "R") "Jan || M" rfl (by decide) (by decide) (by decide)
    (by decide) (by decide) (by decide)

/-! ## Claim C3: the two cumulative-snapshot corrections -/

theorem headD_mem_of_ne_nil (l : List Val) (d : Val) (h : l ≠ []) : l.headD d ∈ l := by
  cases l with
  | nil => exact absurd rfl h
  | cons x xs => exact List.mem_cons_self x xs

theorem getLastD_mem_of_ne_nil (l : List Val) (d : Val) (h : l ≠ []) : l.getLastD d ∈ l := by
  induction l generalizing d with
  | nil => exact absurd rfl h
  | cons x xs ih =>
    rw [List.getLastD_cons]
    cases hxs : xs with
    | nil =>
      simp
    | cons y ys =>
      refine List.mem_cons_of_mem x ?_
      rw [← hxs]
      exact ih x (by rw [hxs]; exact List.cons_ne_nil y ys)

/-- When some record carries the exact boundary key, the initial
correction overwrites (the first) such record with the snapshot of the
first-encountered month. -/
theorem initialCorrection_hit (ml : List String) (months : List Val) (l : List Rec)
    (hex : ∃ r0 ∈ l, jsEqb (r0.get "category") (vstr "Initial || Solde Initial") = true) :
    ∃ r ∈ l, r.get "category" = vstr "Initial || Solde Initial" ∧
      cumulOverwrite ml (months.headD vundef).jsToString r ∈ initialCorrection ml months l := by
  cases hFind : l.findIdx?
      (fun x => jsEqb (x.get "category") (vstr "Initial || Solde Initial")) with
  | none =>
    obtain ⟨r0, h0, hp⟩ := hex
    have hfalse := List.findIdx?_eq_none_iff.mp hFind r0 h0
    rw [hp] at hfalse
    exact absurd hfalse (by decide)
  | some i =>
    obtain ⟨hlt, hp, -⟩ := List.findIdx?_eq_some_iff_getElem.mp hFind
    refine ⟨l[i], List.getElem_mem hlt, jsEqb_true_eq hp, ?_⟩
    have hmm : cumulOverwrite ml (months.headD vundef).jsToString l[i] ∈
        modifyAt l i (cumulOverwrite ml (months.headD vundef).jsToString) := by
      rw [modifyAt_eq l i _ hlt]
      have hge : l.get ⟨i, hlt⟩ = l[i] := List.get_eq_getElem l ⟨i, hlt⟩
      rw [hge]
      exact List.mem_append_right _ (List.mem_cons_self _ _)
    rw [initialCorrection, hFind]
    exact hmm

/-- When no earlier record carries the key `'Grand Total'`, the
grand-total correction overwrites exactly the appended record, with
the snapshot of the last-encountered month. -/
theorem grandTotalCorrection_append (ml : List String) (months : List Val) (l : List Rec)
    (g : Rec)
    (hl : ∀ x ∈ l, jsEqb (x.get "category") (vstr "Grand Total") = false)
    (hg : jsEqb (g.get "category") (vstr "Grand Total") = true) :
    grandTotalCorrection ml months (l ++ [g]) =
      l ++ [cumulOverwrite ml (months.getLastD vundef).jsToString g] := by
  have hfind0 : ∀ (l2 : List Rec) (i : Nat),
      (∀ x ∈ l2, jsEqb (x.get "category") (vstr "Grand Total") = false) →
      (l2 ++ [g]).findIdx? (fun x => jsEqb (x.get "category") (vstr "Grand Total")) i =
        some (i + l2.length) := by
    intro l2
    induction l2 with
    | nil =>
      intro i _
      rw [List.nil_append, List.findIdx?_cons, hg]
      simp
    | cons x xs ih =>
      intro i h2
      rw [List.cons_append, List.findIdx?_cons, h2 x (List.mem_cons_self x xs),
        if_neg (by decide), ih (i + 1) (fun y hy => h2 y (List.mem_cons_of_mem x hy))]
      have harith : i + 1 + xs.length = i + (x :: xs).length := by
        rw [List.length_cons]
        omega
      rw [harith]
  have hfind : ∀ (l2 : List Rec),
      (∀ x ∈ l2, jsEqb (x.get "category") (vstr "Grand Total") = false) →
      (l2 ++ [g]).findIdx? (fun x => jsEqb (x.get "category") (vstr "Grand Total")) =
        some l2.length := by
    intro l2 h2
    have := hfind0 l2 0 h2
    rw [Nat.zero_add] at this
    exact this
  have hmod : ∀ (l2 : List Rec),
      modifyAt (l2 ++ [g]) l2.length
          (cumulOverwrite ml (months.getLastD vundef).jsToString) =
        l2 ++ [cumulOverwrite ml (months.getLastD vundef).jsToString g] := by
    intro l2
    induction l2 with
    | nil => rfl
    | cons x xs ih =>
      simp only [List.cons_append, List.length_cons, modifyAt, List.append_eq]
      rw [ih]
  rw [grandTotalCorrection, hfind l hl]
  exact hmod l

theorem mkGrandTotal_get_category (cfg : Cfg) (mIAR : List String) (records : List Rec)
    (hm : "category" ∉ mIAR) :
    (mkGrandTotal cfg mIAR records).get "category" = vstr "Grand Total" := by
  rw [mkGrandTotal_get, if_neg hm]
  rw [get_foldl_pres]
  · exact get_cons_eq _ _ _
  · intro r i _
    rw [Rec.get_set_ne _ _ _ _ (by decide), Rec.get_set_ne _ _ _ _ (by decide),
      Rec.get_set_ne _ _ _ _ (catkey_ne_category _)]

def cfgC3 : Cfg := ⟨false, 2, ["M"]⟩

/-- Rows for the C3 counterexample: the months arrive in descending
order, and both an `Initial` and a `Final` boundary leaf exist. -/
def dataC3 : List Row :=
  [[vstr "2024-02", vstr "Initial", vstr "Solde Initial", vnum 3],
   [vstr "2024-01", vstr "Initial", vstr "Solde Initial", vnum 4],
   [vstr "2024-02", vstr "Final", vstr "Solde Final", vnum 5],
   [vstr "2024-01", vstr "Final", vstr "Solde Final", vnum 6]]

/-- C3 counterexample: the month list is kept in first-seen (here
descending) order, not sorted ascending; the `Final` boundary leaf keeps
its running total `11` (no correction at all — only the exact key
`'Initial || Solde Initial'` is searched); the `Initial` leaf is
overwritten with the value `3` of the first-SEEN month `2024-02` (the
claimed first-ascending period `2024-01` holds `4`); the grand total is
overwritten with the value `10` of the last-SEEN month `2024-01` (the
claimed last-ascending period `2024-02` sums to `8`). -/
theorem C3_counterexample :
    monthsOf cfgC3 dataC3 = [vstr "2024-02", vstr "2024-01"] ∧
    (finalRecords cfgC3 dataC3).any
      (fun r => jsEqb (r.get "category") (vstr "Final || Solde Final") &&
        (r.get "Cumul || M" == vnum 11)) = true ∧
    (finalRecords cfgC3 dataC3).any
      (fun r => jsEqb (r.get "category") (vstr "Initial || Solde Initial") &&
        (r.get "Cumul || M" == vnum 3)) = true ∧
    (finalRecords cfgC3 dataC3).any
      (fun r => jsEqb (r.get "category") (vstr "Grand Total") &&
        (r.get "Cumul || M" == vnum 10)) = true := by
  decide

/-- C3 (amended): (a) every record whose composite key is neither
exactly `'Initial || Solde Initial'` nor `'Grand Total'` reaches the
output untouched — in particular every other boundary leaf (`Final`,
or an `Initial` leaf with a different second level) keeps its running
total; (b) when a record with the exact key `'Initial || Solde
Initial'` exists, the output holds such a record whose every
`Cumul || measure` equals its own value for the FIRST-SEEN month (not
the first of the months sorted ascending); (c) when no earlier record
is keyed `'Grand Total'`, the output's grand-total record's every
`Cumul || measure` equals its own value for the LAST-SEEN month. -/
theorem C3_amended (cfg : Cfg) (data : List Row) (recs : List Rec)
    (h : renderPipeline cfg data = RenderResult.table recs)
    (hm : monthsOf cfg data ≠ [])
    (hclm : ∀ mo ∈ monthsOf cfg data, ∀ m1 ∈ cfg.measureLabels, ∀ m2 ∈ cfg.measureLabels,
      (mo.jsToString ++ " || " ++ m1) ≠ ("Cumul || " ++ m2))
    (hcat : "category" ∉ mIAROf cfg data) :
    (∀ r ∈ withSubtotals cfg data,
        jsEqb (Rec.get r "category") (vstr "Initial || Solde Initial") = false →
        jsEqb (Rec.get r "category") (vstr "Grand Total") = false → r ∈ recs) ∧
    ((∃ r0 ∈ withSubtotals cfg data,
        jsEqb (Rec.get r0 "category") (vstr "Initial || Solde Initial") = true) →
      ∃ r' ∈ recs, Rec.get r' "category" = vstr "Initial || Solde Initial" ∧
        ∀ mea ∈ cfg.measureLabels, Rec.get r' ("Cumul || " ++ mea) =
          Rec.get r' (((monthsOf cfg data).headD vundef).jsToString ++ " || " ++ mea)) ∧
    ((∀ r ∈ afterInitial cfg data,
        jsEqb (Rec.get r "category") (vstr "Grand Total") = false) →
      ∃ gtr ∈ recs, Rec.get gtr "category" = vstr "Grand Total" ∧
        ∀ mea ∈ cfg.measureLabels, Rec.get gtr ("Cumul || " ++ mea) =
          Rec.get gtr (((monthsOf cfg data).getLastD vundef).jsToString ++ " || " ++ mea)) := by
  obtain ⟨rfl, -, -, -⟩ := renderPipeline_table cfg data recs h
  refine ⟨?_, ?_, ?_⟩
  · intro r hr h1 h2
    have hne1 : Rec.get r "category" ≠ vstr "Initial || Solde Initial" := by
      intro he
      rw [he] at h1
      exact absurd h1 (by decide)
    have hne2 : Rec.get r "category" ≠ vstr "Grand Total" := by
      intro he
      rw [he] at h2
      exact absurd h2 (by decide)
    have hin : r ∈ afterInitial cfg data := by
      rw [afterInitial]
      exact (initialCorrection_mem_of_ne _ _ _ _ hne1).mpr hr
    have hin2 : r ∈ afterGTCorrection cfg data := by
      rw [afterGTCorrection]
      refine (grandTotalCorrection_mem_of_ne _ _ _ _ hne2).mpr ?_
      rw [withGrandTotal]
      exact List.mem_append_left _ hin
    rw [finalRecords]
    exact (mem_sortCmp _ _ _).mpr hin2
  · intro hex
    obtain ⟨tgt, htm, hcatv, hmem⟩ :=
      initialCorrection_hit cfg.measureLabels (monthsOf cfg data) (withSubtotals cfg data) hex
    set ms := ((monthsOf cfg data).headD vundef).jsToString with hms
    set r' := cumulOverwrite cfg.measureLabels ms tgt with hr'
    have hmemAI : r' ∈ afterInitial cfg data := by
      rw [afterInitial]
      exact hmem
    have hcat' : Rec.get r' "category" = vstr "Initial || Solde Initial" := by
      rw [hr', cumulOverwrite_category, hcatv]
    have hne2 : Rec.get r' "category" ≠ vstr "Grand Total" := by
      rw [hcat']
      decide
    have hmemGT : r' ∈ afterGTCorrection cfg data := by
      rw [afterGTCorrection]
      refine (grandTotalCorrection_mem_of_ne _ _ _ _ hne2).mpr ?_
      rw [withGrandTotal]
      exact List.mem_append_left _ hmemAI
    have hmom : (monthsOf cfg data).headD vundef ∈ monthsOf cfg data :=
      headD_mem_of_ne_nil _ _ hm
    refine ⟨r', ?_, hcat', fun mea hmea => ?_⟩
    · rw [finalRecords]
      exact (mem_sortCmp _ _ _).mpr hmemGT
    · rw [hr', cumulOverwrite_get_cumul _ _ _ _ hmea
        (fun m1 h1 m2 h2 => hclm _ hmom m1 h1 m2 h2),
        get_cumulOverwrite_ne_cumul _ _ _ _
        (fun m hmm => (hclm _ hmom mea hmea m hmm).symm)]
  · intro hnoGT
    set g := mkGrandTotal cfg (mIAROf cfg data) (afterInitial cfg data) with hgdef
    have hgcat : Rec.get g "category" = vstr "Grand Total" := by
      rw [hgdef]
      exact mkGrandTotal_get_category _ _ _ hcat
    set ms := ((monthsOf cfg data).getLastD vundef).jsToString with hms
    have heq : afterGTCorrection cfg data =
        afterInitial cfg data ++ [cumulOverwrite cfg.measureLabels ms g] := by
      rw [afterGTCorrection, withGrandTotal]
      exact grandTotalCorrection_append _ _ _ _ hnoGT (by rw [hgcat]; decide)
    set gtr := cumulOverwrite cfg.measureLabels ms g with hgtr
    have hmemGT : gtr ∈ afterGTCorrection cfg data := by
      rw [heq]
      exact List.mem_append_right _ (List.mem_cons_self _ _)
    have hcatGT : Rec.get gtr "category" = vstr "Grand Total" := by
      rw [hgtr, cumulOverwrite_category, hgcat]
    have hlast : (monthsOf cfg data).getLastD vundef ∈ monthsOf cfg data :=
      getLastD_mem_of_ne_nil _ _ hm
    refine ⟨gtr, ?_, hcatGT, fun mea hmea => ?_⟩
    · rw [finalRecords]
      exact (mem_sortCmp _ _ _).mpr hmemGT
    · rw [hgtr, cumulOverwrite_get_cumul _ _ _ _ hmea
        (fun m1 h1 m2 h2 => hclm _ hlast m1 h1 m2 h2),
        get_cumulOverwrite_ne_cumul _ _ _ _
        (fun m hmm => (hclm _ hlast mea hmea m hmm).symm)]

def cfgC3w : Cfg := ⟨false, 2, ["M"]⟩

/-- Rows for the C3 witness: an `Initial` boundary leaf and an ordinary
leaf over two months. -/
def dataC3w : List Row :=
  [[vstr "2024-01", vstr "Initial", vstr "Solde Initial", vnum 7],
   [vstr "2024-02", vstr "Actif", vstr "x", vnum 2]]

/-- Witness for C3 (amended), part (b), at a concrete input: the
corrected `Initial` record's `Cumul` columns equal its own first-seen
month values. -/
theorem C3_witness :
    ∃ r' ∈ finalRecords cfgC3w dataC3w,
      Rec.get r' "category" = vstr "Initial || Solde Initial" ∧
      ∀ mea ∈ cfgC3w.measureLabels, Rec.get r' ("Cumul || " ++ mea) =
        Rec.get r' (((monthsOf cfgC3w dataC3w).headD vundef).jsToString ++ " || " ++ mea) :=
  (C3_amended cfgC3w dataC3w _ rfl (by decide) (by decide) (by decide)).2.1 (by decide)
